import Mathlib

/-!
Array-backed binary min-heap of `heap.go`.

A shallow embedding of the heap operations of `src/heap.go` (`Heapify`,
`HeapifyRec`, `BuildHeap`, `Insert`, `FindMin`, `ExtractMin`, `Replace`)
together with the properties the specification states about them.

Modelling conventions

* A Go slice `[]T` is a `List α`; a function that writes through the slice
  returns the new contents. `T cmp.Ordered` is a `LinearOrder α`.
* Go's `int` is the 64-bit two's-complement integer: every `+`, `-`, `*`, `/`
  is followed by `wrapInt`. `len(array)` is the list length as an `Int`.
  The child index `(i+1)*2` of a position `i < len(array)` stays in range as
  long as `len(array) < 2 ^ 62`, which holds for every slice a 64-bit runtime
  can allocate; the theorems carry this bound as a hypothesis.
* An index expression `array[k]` with `k` outside `0 ≤ k < len(array)` is a
  run-time panic: `Run.panic`.
* Loops are unrolled over an explicit iteration budget. A run that exhausts
  the budget ends in `Run.timeout`, so that `Run.ok` always stands for a real
  return of the Go function.
* The Go `error` result is an `Option String` (`none` is `nil`), the zero
  value `var def T` is `default`.
-/

namespace TreeGo

/-! ## Runs of Go code -/

/-- Outcome of running a piece of Go code. -/
inductive Run (β : Type) where
  | ok (v : β)
  | panic
  | timeout
  deriving DecidableEq, Repr

/-- Sequencing of runs: the first failure ends the run. -/
def Run.bind {β γ : Type} (x : Run β) (f : β → Run γ) : Run γ :=
  match x with
  | Run.ok v => f v
  | Run.panic => Run.panic
  | Run.timeout => Run.timeout

instance : Monad Run where
  pure := Run.ok
  bind := Run.bind

/-! ## Go `int` and slices -/

/-- Two's-complement wrap-around of a mathematical integer into the 64-bit `int`. -/
def wrapInt (z : Int) : Int :=
  (z + 9223372036854775808) % 18446744073709551616 - 9223372036854775808

/-- Go `a + b` on `int`. -/
def addInt (a b : Int) : Int := wrapInt (a + b)

/-- Go `a - b` on `int`. -/
def subInt (a b : Int) : Int := wrapInt (a - b)

/-- Go `a * b` on `int`. -/
def mulInt (a b : Int) : Int := wrapInt (a * b)

/-- Go `a / b` on `int` (truncated towards zero), for a non-zero constant `b`. -/
def divInt (a b : Int) : Int := wrapInt (Int.tdiv a b)

/-- Go `len(array)`. -/
def len {α : Type} (array : List α) : Int := (array.length : Int)

/-- Go `array[k]` as a value: panics unless `0 ≤ k < len(array)`. -/
def index {α : Type} (array : List α) (k : Int) : Run α :=
  if 0 ≤ k then
    match array[k.toNat]? with
    | some x => Run.ok x
    | none => Run.panic
  else Run.panic

/-- Go `array[k] = x`: panics unless `0 ≤ k < len(array)`. -/
def store {α : Type} (array : List α) (k : Int) (x : α) : Run (List α) :=
  if 0 ≤ k ∧ k < len array then Run.ok (array.set k.toNat x) else Run.panic

/-- Go `array[:k]`: panics unless `0 ≤ k ≤ len(array)`. Capacity beyond the
length is not modelled; `ExtractMin` only ever shortens the slice. -/
def slice {α : Type} (array : List α) (k : Int) : Run (List α) :=
  if 0 ≤ k ∧ k ≤ len array then Run.ok (array.take k.toNat) else Run.panic

/-- Go `array[a] < array[b]`. -/
def lessAt {α : Type} [LinearOrder α] (array : List α) (a b : Int) : Run Bool := do
  let x ← index array a
  let y ← index array b
  pure (decide (x < y))

/-- Go `k < len(array) && array[k] < array[m]`: the right operand is evaluated
only when the left one holds. -/
def inBoundsAndLess {α : Type} [LinearOrder α] (array : List α) (k m : Int) : Run Bool :=
  if k < len array then lessAt array k m else pure false

/-- Go `array[a], array[b] = array[b], array[a]`: both operands are read, then
both positions are written, left to right. -/
def swap {α : Type} (array : List α) (a b : Int) : Run (List α) := do
  let x ← index array b
  let y ← index array a
  let array ← store array a x
  store array b y

/-! ## The heap operations -/

/-- The loop of `Heapify` (`heap.go`, lines 53-72), with an iteration budget. -/
def HeapifyLoop {α : Type} [LinearOrder α] : Nat → List α → Int → Run (List α)
  | 0, _, _ => Run.timeout
  | fuel + 1, array, i => do
    let l := subInt (mulInt (addInt i 1) 2) 1
    let r := mulInt (addInt i 1) 2
    let c ← inBoundsAndLess array l i
    let min_index := if c then l else i
    let c ← inBoundsAndLess array r min_index
    let min_index := if c then r else min_index
    if min_index = i then
      pure array
    else do
      let array ← swap array min_index i
      HeapifyLoop fuel array min_index

/-- Sift-down `Heapify(array, i)`. Every iteration but the last moves `i` to a
larger index below `len(array)`, so `len(array) + 1` iterations are enough. -/
def Heapify {α : Type} [LinearOrder α] (array : List α) (i : Int) : Run (List α) :=
  HeapifyLoop (array.length + 1) array i

/-- The body of `HeapifyRec` (`heap.go`, lines 77-95), with a budget on the
depth of the recursion. -/
def HeapifyRecCall {α : Type} [LinearOrder α] : Nat → List α → Int → Run (List α)
  | 0, _, _ => Run.timeout
  | depth + 1, array, i => do
    let l := subInt (mulInt (addInt i 1) 2) 1
    let r := mulInt (addInt i 1) 2
    let c ← inBoundsAndLess array l i
    let min_index := if c then l else i
    let c ← inBoundsAndLess array r min_index
    let min_index := if c then r else min_index
    if min_index ≠ i then do
      let array ← swap array min_index i
      HeapifyRecCall depth array min_index
    else pure array

/-- Recursive sift-down `HeapifyRec(array, i)`. Every call but the last
recurses on a larger index below `len(array)`, so depth `len(array) + 1` is
enough. -/
def HeapifyRec {α : Type} [LinearOrder α] (array : List α) (i : Int) : Run (List α) :=
  HeapifyRecCall (array.length + 1) array i

/-- The loop `for i := ...; i >= 0; i--` of `BuildHeap` with `n` iterations
left, that is with loop variable `i = n - 1`. -/
def BuildHeapLoop {α : Type} [LinearOrder α] : Nat → List α → Run (List α)
  | 0, array => pure array
  | n + 1, array => do
    let array ← Heapify array (n : Int)
    BuildHeapLoop n array

/-- `BuildHeap(array)`: the loop starts at `i = len(array)/2 - 1` and runs
while `i >= 0`, which is `i + 1` iterations (none when `i < 0`). -/
def BuildHeap {α : Type} [LinearOrder α] (array : List α) : Run (List α) :=
  if len array < 2 then pure array
  else BuildHeapLoop (addInt (subInt (divInt (len array) 2) 1) 1).toNat array

/-- The sift-up loop of `Insert` (`heap.go`, lines 108-111), with an iteration
budget. -/
def InsertLoop {α : Type} [LinearOrder α] : Nat → List α → Int → Int → Run (List α)
  | 0, _, _, _ => Run.timeout
  | fuel + 1, array, index, parent =>
    if parent ≥ 0 then do
      let c ← lessAt array index parent
      if c then do
        let array ← swap array parent index
        InsertLoop fuel array parent (subInt (divInt (addInt parent 1) 2) 1)
      else pure array
    else pure array

/-- `Insert(array, element)`. Every iteration but the last moves `index` to a
smaller index, so `len(array) + 1` iterations are enough. -/
def Insert {α : Type} [LinearOrder α] (array : List α) (element : α) : Run (List α) :=
  let array := array ++ [element]
  let index := subInt (len array) 1
  let parent := subInt (divInt (len array) 2) 1
  InsertLoop (array.length + 1) array index parent

/-- `FindMin(array)`: the slice after the call, the returned element and the
returned error. -/
def FindMin {α : Type} [Inhabited α] (array : List α) : Run (List α × α × Option String) :=
  if len array = 0 then
    pure (array, default, some "in FindMin(): array can not be empty")
  else do
    let x ← index array 0
    pure (array, x, none)

/-- `ExtractMin(array)`: the returned slice, element and error. -/
def ExtractMin {α : Type} [LinearOrder α] [Inhabited α] (array : List α) :
    Run (List α × α × Option String) :=
  if len array = 0 then
    pure (array, default, some "in ExtractMin(): array can not be empty")
  else do
    let min ← index array 0
    let last ← index array (subInt (len array) 1)
    let array ← store array 0 last
    let array ← slice array (subInt (len array) 1)
    let array ← Heapify array 0
    pure (array, min, none)

/-- `Replace(array, element)`: the returned slice, element and error. -/
def Replace {α : Type} [LinearOrder α] [Inhabited α] (array : List α) (element : α) :
    Run (List α × α × Option String) :=
  if len array = 0 then
    pure (array, default, some "in Replace(): array can not be empty")
  else do
    let min ← index array 0
    let array ← store array 0 element
    let array ← Heapify array 0
    pure (array, min, none)

/-- The round trip of the specification: `ExtractMin` is called until the
sequence is empty and the returned elements are collected in `out`, in the
order of extraction. -/
def ExtractAllLoop {α : Type} [LinearOrder α] [Inhabited α] :
    Nat → List α → List α → Run (List α)
  | 0, _, _ => Run.timeout
  | fuel + 1, array, out =>
    if len array = 0 then pure out
    else do
      let r ← ExtractMin array
      ExtractAllLoop fuel r.1 (out ++ [r.2.1])

/-- `BuildHeap` followed by the extraction round trip. Each call of
`ExtractMin` on a non-empty sequence shortens it by one, so `len(array) + 1`
iterations are enough. -/
def heapSort {α : Type} [LinearOrder α] [Inhabited α] (S : List α) : Run (List α) := do
  let array ← BuildHeap S
  ExtractAllLoop (array.length + 1) array []

/-! ## Specification vocabulary -/

/-- The min-heap property of the specification: every index is `≤` its left
child `(i+1)*2-1` and its right child `(i+1)*2` whenever that child is in
bounds. -/
def IsMinHeap {α : Type} [LinearOrder α] (array : List α) : Prop :=
  ∀ i : Fin array.length,
    (∀ h : (i.val + 1) * 2 - 1 < array.length, array[i.val] ≤ array[(i.val + 1) * 2 - 1]) ∧
    (∀ h : (i.val + 1) * 2 < array.length, array[i.val] ≤ array[(i.val + 1) * 2])

instance {α : Type} [LinearOrder α] (array : List α) : Decidable (IsMinHeap array) := by
  unfold IsMinHeap
  infer_instance

/-- Position `j` lies in the subtree rooted at `i`: it is `i` itself or is
reached from `i` by repeatedly taking `(k+1)*2-1` or `(k+1)*2`. -/
inductive Reach : Nat → Nat → Prop where
  | root (i : Nat) : Reach i i
  | left {i k : Nat} : Reach i k → Reach i ((k + 1) * 2 - 1)
  | right {i k : Nat} : Reach i k → Reach i ((k + 1) * 2)

/-- Walk from `j` up through the parents `(j-1)/2`, at most `n` steps, looking
for `i`. -/
def inSubtreeAux : Nat → Nat → Nat → Bool
  | 0, i, j => decide (j = i)
  | n + 1, i, j =>
    if j = i then true else if j ≤ i then false else inSubtreeAux n i ((j - 1) / 2)

/-- Decision procedure for `Reach i j`. -/
def inSubtree (i j : Nat) : Bool := inSubtreeAux j i j

/-- The min-heap property at every index except `i`. -/
def IsMinHeapExceptAt {α : Type} [LinearOrder α] (array : List α) (i : Nat) : Prop :=
  ∀ j : Fin array.length, j.val ≠ i →
    (∀ h : (j.val + 1) * 2 - 1 < array.length, array[j.val] ≤ array[(j.val + 1) * 2 - 1]) ∧
    (∀ h : (j.val + 1) * 2 < array.length, array[j.val] ≤ array[(j.val + 1) * 2])

instance {α : Type} [LinearOrder α] (array : List α) (i : Nat) :
    Decidable (IsMinHeapExceptAt array i) := by
  unfold IsMinHeapExceptAt
  infer_instance

/-- The min-heap property at every index of the subtree rooted at `i`. -/
def IsMinHeapBelow {α : Type} [LinearOrder α] (array : List α) (i : Nat) : Prop :=
  ∀ j : Fin array.length, inSubtree i j.val = true →
    (∀ h : (j.val + 1) * 2 - 1 < array.length, array[j.val] ≤ array[(j.val + 1) * 2 - 1]) ∧
    (∀ h : (j.val + 1) * 2 < array.length, array[j.val] ≤ array[(j.val + 1) * 2])

instance {α : Type} [LinearOrder α] (array : List α) (i : Nat) :
    Decidable (IsMinHeapBelow array i) := by
  unfold IsMinHeapBelow
  infer_instance

/-! ## Pure counterparts used in the proofs

The list functions below compute on natural-number positions what the loops of
`heap.go` compute when no index arithmetic overflows. They are related to the
embedded code by the `_eq` bridge lemmas of the next sections. -/

/-- Test `array[j] < array[k]` for positions that are both in bounds. -/
def ltAt {α : Type} [LinearOrder α] (a : List α) (j k : Nat) : Bool :=
  match a[j]?, a[k]? with
  | some x, some y => decide (x < y)
  | _, _ => false

/-- The position `min_index` chosen by one iteration of the sift-down loop. -/
def minIndex {α : Type} [LinearOrder α] (a : List α) (i : Nat) : Nat :=
  let m := if ltAt a (2 * i + 1) i then 2 * i + 1 else i
  if ltAt a (2 * i + 2) m then 2 * i + 2 else m

/-- Exchange of the entries at two positions that are in bounds. -/
def swapAt {α : Type} (a : List α) (j k : Nat) : List α :=
  match a[j]?, a[k]? with
  | some x, some y => (a.set j y).set k x
  | _, _ => a

/-- Sift-down on natural-number positions, `fuel` iterations at most. -/
def siftDown {α : Type} [LinearOrder α] : Nat → List α → Nat → List α
  | 0, a, _ => a
  | fuel + 1, a, i =>
    if minIndex a i = i then a
    else siftDown fuel (swapAt a (minIndex a i) i) (minIndex a i)

/-- Sift-up on natural-number positions, `fuel` iterations at most. -/
def siftUp {α : Type} [LinearOrder α] : Nat → List α → Nat → List α
  | 0, a, _ => a
  | fuel + 1, a, j =>
    if j = 0 then a
    else if ltAt a j ((j - 1) / 2) then siftUp fuel (swapAt a ((j - 1) / 2) j) ((j - 1) / 2)
    else a

/-- The bottom-up construction loop on natural-number positions. -/
def buildLoop {α : Type} [LinearOrder α] : Nat → List α → List α
  | 0, a => a
  | n + 1, a => buildLoop n (siftDown (a.length + 1) a n)

/-- Order between the entries at positions `p` and `c`, when both exist. -/
def LeAt {α : Type} [LinearOrder α] (a : List α) (p c : Nat) : Prop :=
  ∀ x y, a[p]? = some x → a[c]? = some y → x ≤ y

instance {α : Type} [LinearOrder α] (a : List α) (p c : Nat) : Decidable (LeAt a p c) :=
  decidable_of_iff (∀ x, x ∈ a[p]? → ∀ y, y ∈ a[c]? → x ≤ y)
    ⟨fun h x y hx hy => h x hx y hy, fun h x hx y hy => h x y hx hy⟩

/-- Position `j` is in order with both of its children. -/
def HeapAt {α : Type} [LinearOrder α] (a : List α) (j : Nat) : Prop :=
  LeAt a j (2 * j + 1) ∧ LeAt a j (2 * j + 2)

/-- Sift-down precondition: every position from `k` on is in order with its
children, except possibly `i`, and a parent of `i` at or after `k` is `≤` the
children of `i`. -/
def SiftInv {α : Type} [LinearOrder α] (a : List α) (k i : Nat) : Prop :=
  (∀ j, k ≤ j → j ≠ i → HeapAt a j) ∧
  (∀ p, k ≤ p → (i = 2 * p + 1 ∨ i = 2 * p + 2) → LeAt a p (2 * i + 1) ∧ LeAt a p (2 * i + 2))

/-- Sift-up precondition: every parent/child pair is in order except possibly
the pair above `j`, and the parent of `j` is `≤` the children of `j`. -/
def UpInv {α : Type} [LinearOrder α] (a : List α) (j : Nat) : Prop :=
  (∀ p c, (c = 2 * p + 1 ∨ c = 2 * p + 2) → c ≠ j → LeAt a p c) ∧
  (∀ g c, (j = 2 * g + 1 ∨ j = 2 * g + 2) → (c = 2 * j + 1 ∨ c = 2 * j + 2) → LeAt a g c)

/-- The slice `ExtractMin` hands to `Heapify`: last entry moved to the root,
length cut by one. -/
def popRoot {α : Type} (a : List α) (z : α) : List α := (a.set 0 z).take (a.length - 1)

/-! ## Machine arithmetic in range -/

section Bridge

variable {α : Type}

@[simp] theorem Run.ok_bind {β γ : Type} (v : β) (f : β → Run γ) : (Run.ok v >>= f) = f v := rfl

@[simp] theorem Run.pure_eq {β : Type} (v : β) : (pure v : Run β) = Run.ok v := rfl

theorem wrapInt_eq {z : Int} (h1 : -9223372036854775808 ≤ z) (h2 : z < 9223372036854775808) :
    wrapInt z = z := by
  unfold wrapInt; omega

theorem leftChild_eq (i : Nat) (h : i + 1 < 4611686018427387904) :
    subInt (mulInt (addInt (i : Int) 1) 2) 1 = ((2 * i + 1 : Nat) : Int) := by
  have e1 : addInt (i : Int) 1 = (i : Int) + 1 := wrapInt_eq (by omega) (by omega)
  have e2 : mulInt ((i : Int) + 1) 2 = ((i : Int) + 1) * 2 := wrapInt_eq (by omega) (by omega)
  have e3 : subInt (((i : Int) + 1) * 2) 1 = ((i : Int) + 1) * 2 - 1 :=
    wrapInt_eq (by omega) (by omega)
  rw [e1, e2, e3]; push_cast; omega

theorem rightChild_eq (i : Nat) (h : i + 1 < 4611686018427387904) :
    mulInt (addInt (i : Int) 1) 2 = ((2 * i + 2 : Nat) : Int) := by
  have e1 : addInt (i : Int) 1 = (i : Int) + 1 := wrapInt_eq (by omega) (by omega)
  have e2 : mulInt ((i : Int) + 1) 2 = ((i : Int) + 1) * 2 := wrapInt_eq (by omega) (by omega)
  rw [e1, e2]; push_cast; omega

theorem index_natCast (a : List α) (n : Nat) :
    index a (n : Int) = (match a[n]? with | some x => Run.ok x | none => Run.panic) := by
  simp [index]

theorem index_of_get {a : List α} {n : Nat} {x : α} (h : a[n]? = some x) :
    index a (n : Int) = Run.ok x := by
  rw [index_natCast, h]

theorem store_natCast {a : List α} {n : Nat} (h : n < a.length) (x : α) :
    store a (n : Int) x = Run.ok (a.set n x) := by
  simp [store, len, h]

theorem lessAt_guard [LinearOrder α] (a : List α) (j k : Nat) (hk : j < a.length → k < a.length) :
    inBoundsAndLess a (j : Int) (k : Int) = Run.ok (ltAt a j k) := by
  unfold inBoundsAndLess
  by_cases hj : j < a.length
  · have hk' := hk hj
    have h1 : (j : Int) < len a := by simp [len, hj]
    rw [if_pos h1]
    simp [lessAt, ltAt, index_natCast, List.getElem?_eq_getElem hj, List.getElem?_eq_getElem hk']
  · have h1 : ¬ (j : Int) < len a := by simp [len]; omega
    rw [if_neg h1]
    have : a[j]? = none := List.getElem?_eq_none (by omega)
    simp [ltAt, this]

theorem ltAt_bounds [LinearOrder α] {a : List α} {j k : Nat} (h : ltAt a j k = true) :
    j < a.length ∧ k < a.length := by
  unfold ltAt at h
  constructor
  · by_contra hj
    rw [List.getElem?_eq_none (by omega)] at h
    simp at h
  · by_contra hk
    rw [List.getElem?_eq_none (n := k) (by omega)] at h
    cases hj : a[j]? <;> simp [hj] at h

theorem swap_natCast {a : List α} {j k : Nat} (hj : j < a.length) (hk : k < a.length) :
    swap a (j : Int) (k : Int) = Run.ok (swapAt a j k) := by
  simp [swap, swapAt, index_natCast, List.getElem?_eq_getElem hj, List.getElem?_eq_getElem hk,
    store_natCast hj]
  rw [store_natCast (by simpa using hk)]

theorem minIndex_cases [LinearOrder α] (a : List α) (i : Nat) :
    minIndex a i = i ∨
      ((minIndex a i = 2 * i + 1 ∨ minIndex a i = 2 * i + 2) ∧ minIndex a i < a.length ∧
        i < a.length) := by
  unfold minIndex
  by_cases h1 : ltAt a (2 * i + 1) i = true
  · have b1 := ltAt_bounds h1
    by_cases h2 : ltAt a (2 * i + 2) (2 * i + 1) = true
    · have b2 := ltAt_bounds h2
      simp [h1, h2]; omega
    · simp [h1, h2]; omega
  · by_cases h2 : ltAt a (2 * i + 2) i = true
    · have b2 := ltAt_bounds h2
      simp [h1, h2]; omega
    · simp [h1, h2]

@[simp] theorem swapAt_length (a : List α) (j k : Nat) : (swapAt a j k).length = a.length := by
  unfold swapAt
  split <;> simp

theorem HeapifyLoop_eq [LinearOrder α] (fuel : Nat) (a : List α) (i : Nat)
    (hlen : a.length < 4611686018427387904) (hi : i + 1 < 4611686018427387904)
    (hf : a.length - i < fuel) :
    HeapifyLoop fuel a (i : Int) = Run.ok (siftDown fuel a i) := by
  induction fuel generalizing a i with
  | zero => omega
  | succ n ih =>
    have g1 := lessAt_guard a (2 * i + 1) i (by omega)
    have g2 := lessAt_guard a (2 * i + 2) (if ltAt a (2 * i + 1) i then 2 * i + 1 else i)
      (by split <;> omega)
    have c1 : (if ltAt a (2 * i + 1) i = true then ((2 * i + 1 : Nat) : Int) else (i : Int))
        = ((if ltAt a (2 * i + 1) i then 2 * i + 1 else i : Nat) : Int) := by
      split <;> rfl
    have c2 : (if ltAt a (2 * i + 2) (if ltAt a (2 * i + 1) i then 2 * i + 1 else i) = true
          then ((2 * i + 2 : Nat) : Int)
          else ((if ltAt a (2 * i + 1) i then 2 * i + 1 else i : Nat) : Int))
        = ((minIndex a i : Nat) : Int) := by
      simp only [minIndex]
      split_ifs <;> rfl
    simp only [HeapifyLoop, siftDown]
    rw [leftChild_eq i hi, rightChild_eq i hi, g1]
    simp only [Run.ok_bind]
    rw [c1, g2]
    simp only [Run.ok_bind]
    rw [c2]
    rcases minIndex_cases a i with h | ⟨h1, h2, h3⟩
    · simp [h]
    · have hne : minIndex a i ≠ i := by omega
      have hne' : ¬ ((minIndex a i : Nat) : Int) = (i : Int) := by
        intro h; exact hne (by exact_mod_cast h)
      rw [if_neg hne', if_neg hne, swap_natCast h2 h3]
      simp only [Run.ok_bind]
      exact ih _ _ (by simpa using hlen) (by omega) (by simp; omega)

end Bridge

/-! ## Sift-down on natural-number positions -/

section SiftDown

variable {α : Type}

theorem swapAt_get {a : List α} {j k : Nat} (hj : j < a.length) (hk : k < a.length)
    (n : Nat) :
    (swapAt a j k)[n]? = if n = k then a[j]? else if n = j then a[k]? else a[n]? := by
  unfold swapAt
  rw [List.getElem?_eq_getElem hj, List.getElem?_eq_getElem hk]
  simp only [List.getElem?_set, List.length_set]
  by_cases h1 : n = k
  · subst h1; simp [hk]
  · by_cases h2 : n = j
    · subst h2
      simp [h1, hj, Ne.symm h1]
    · simp [h1, h2, Ne.symm h1, Ne.symm h2]

theorem set_perm {a : List α} {n : Nat} {x : α} (h : a[n]? = some x) (y : α) :
    (x :: a.set n y).Perm (y :: a) := by
  induction a generalizing n with
  | nil => simp at h
  | cons hd tl ih =>
    cases n with
    | zero =>
      simp at h
      subst h
      simpa using List.Perm.swap y hd tl
    | succ m =>
      simp at h
      simp only [List.set_cons_succ]
      exact ((List.Perm.swap hd x _).trans ((ih h).cons hd)).trans (List.Perm.swap y hd tl)

theorem swapAt_perm (a : List α) (j k : Nat) : (swapAt a j k).Perm a := by
  unfold swapAt
  cases hj : a[j]? with
  | none => simp
  | some x =>
    cases hk : a[k]? with
    | none => simp
    | some y =>
      simp only
      by_cases hjk : j = k
      · subst hjk
        rw [hj] at hk
        cases hk
        rw [List.set_set]
        have := set_perm hj x
        exact this.cons_inv
      · have h1 := set_perm hj y
        have hk' : (a.set j y)[k]? = some y := by
          rw [List.getElem?_set_ne hjk]; exact hk
        have h2 := set_perm hk' x
        exact (h2.trans h1).cons_inv

@[simp] theorem siftDown_length [LinearOrder α] (fuel : Nat) (a : List α) (i : Nat) :
    (siftDown fuel a i).length = a.length := by
  induction fuel generalizing a i with
  | zero => rfl
  | succ n ih =>
    simp only [siftDown]
    split
    · rfl
    · rw [ih, swapAt_length]

theorem siftDown_perm [LinearOrder α] (fuel : Nat) (a : List α) (i : Nat) :
    (siftDown fuel a i).Perm a := by
  induction fuel generalizing a i with
  | zero => exact List.Perm.refl _
  | succ n ih =>
    simp only [siftDown]
    split
    · exact List.Perm.refl _
    · exact (ih _ _).trans (swapAt_perm _ _ _)

theorem ltAt_true [LinearOrder α] {a : List α} {j k : Nat} (h : ltAt a j k = true) :
    ∃ x y, a[j]? = some x ∧ a[k]? = some y ∧ x < y := by
  unfold ltAt at h
  cases hj : a[j]? with
  | none => simp [hj] at h
  | some x =>
    cases hk : a[k]? with
    | none => simp [hj, hk] at h
    | some y =>
      simp [hj, hk] at h
      exact ⟨x, y, rfl, rfl, h⟩

theorem ltAt_false [LinearOrder α] {a : List α} {j k : Nat} (h : ¬ ltAt a j k = true) :
    LeAt a k j := by
  intro y x hy hx
  unfold ltAt at h
  simp [hx, hy] at h
  exact h

theorem leAt_of_ltAt [LinearOrder α] {a : List α} {j k : Nat} (h : ltAt a j k = true) :
    LeAt a j k := by
  obtain ⟨x, y, hx, hy, hlt⟩ := ltAt_true h
  intro x' y' hx' hy'
  rw [hx] at hx'; rw [hy] at hy'
  cases hx'; cases hy'
  exact le_of_lt hlt

theorem leAt_refl [LinearOrder α] (a : List α) (j : Nat) : LeAt a j j := by
  intro x y hx hy
  rw [hx] at hy; cases hy
  exact le_refl _

theorem leAt_trans [LinearOrder α] {a : List α} {p q r : Nat} (hq : q < a.length)
    (h1 : LeAt a p q) (h2 : LeAt a q r) : LeAt a p r := by
  intro x z hx hz
  exact le_trans (h1 x a[q] hx (List.getElem?_eq_getElem hq))
    (h2 a[q] z (List.getElem?_eq_getElem hq) hz)

/-- The selected position holds an entry `≤` the entries at `i` and at both
children of `i`. -/
theorem minIndex_spec [LinearOrder α] (a : List α) (i : Nat) :
    LeAt a (minIndex a i) i ∧ LeAt a (minIndex a i) (2 * i + 1) ∧
      LeAt a (minIndex a i) (2 * i + 2) := by
  by_cases h1 : ltAt a (2 * i + 1) i = true
  · have b1 := ltAt_bounds h1
    by_cases h2 : ltAt a (2 * i + 2) (2 * i + 1) = true
    · have b2 := ltAt_bounds h2
      have e : minIndex a i = 2 * i + 2 := by simp [minIndex, h1, h2]
      rw [e]
      exact ⟨leAt_trans b1.1 (leAt_of_ltAt h2) (leAt_of_ltAt h1), leAt_of_ltAt h2, leAt_refl _ _⟩
    · have e : minIndex a i = 2 * i + 1 := by simp [minIndex, h1, h2]
      rw [e]
      exact ⟨leAt_of_ltAt h1, leAt_refl _ _, ltAt_false h2⟩
  · by_cases h2 : ltAt a (2 * i + 2) i = true
    · have b2 := ltAt_bounds h2
      have e : minIndex a i = 2 * i + 2 := by simp [minIndex, h1, h2]
      rw [e]
      exact ⟨leAt_of_ltAt h2, leAt_trans b2.2 (leAt_of_ltAt h2) (ltAt_false h1), leAt_refl _ _⟩
    · have e : minIndex a i = i := by simp [minIndex, h1, h2]
      rw [e]
      exact ⟨leAt_refl _ _, ltAt_false h1, ltAt_false h2⟩

/-- One swap of the sift-down loop moves the precondition from `i` to the
selected child. -/
theorem siftInv_step [LinearOrder α] {a : List α} {k i : Nat} (hki : k ≤ i)
    (hinv : SiftInv a k i) (hne : minIndex a i ≠ i) :
    SiftInv (swapAt a (minIndex a i) i) k (minIndex a i) := by
  rcases minIndex_cases a i with h | ⟨hm, hml, hil⟩
  · exact absurd h hne
  obtain ⟨s1, s2, s3⟩ := minIndex_spec a i
  have get := swapAt_get hml hil
  have hmc : LeAt a (minIndex a i) (minIndex a i) := leAt_refl _ _
  constructor
  · intro j hkj hjm
    have key : ∀ c, (c = 2 * j + 1 ∨ c = 2 * j + 2) →
        LeAt (swapAt a (minIndex a i) i) j c := by
      intro c hc x y hx hy
      rw [get] at hx hy
      by_cases hji : j = i
      · subst hji
        rw [if_pos rfl] at hx
        have hci : c ≠ j := by omega
        rw [if_neg hci] at hy
        by_cases hcm : c = minIndex a j
        · rw [if_pos hcm] at hy
          exact s1 x y hx hy
        · rw [if_neg hcm] at hy
          rcases hc with hc | hc
          · subst hc; exact s2 x y hx hy
          · subst hc; exact s3 x y hx hy
      · rw [if_neg hji, if_neg hjm] at hx
        by_cases hci : c = i
        · rw [if_pos hci] at hy
          have hp := hinv.2 j hkj (by omega)
          rcases hm with hm | hm
          · rw [hm] at hy; exact hp.1 x y hx hy
          · rw [hm] at hy; exact hp.2 x y hx hy
        · have hcm : c ≠ minIndex a i := by omega
          rw [if_neg hci, if_neg hcm] at hy
          have hj := hinv.1 j hkj hji
          rcases hc with hc | hc
          · subst hc; exact hj.1 x y hx hy
          · subst hc; exact hj.2 x y hx hy
    exact ⟨key _ (Or.inl rfl), key _ (Or.inr rfl)⟩
  · intro p hkp hp
    have hpi : p = i := by omega
    subst hpi
    have hmh := hinv.1 (minIndex a p) (by omega) hne
    have key : ∀ c, (c = 2 * minIndex a p + 1 ∨ c = 2 * minIndex a p + 2) →
        LeAt (swapAt a (minIndex a p) p) p c := by
      intro c hc x y hx hy
      rw [get] at hx hy
      rw [if_pos rfl] at hx
      have h1 : c ≠ p := by omega
      have h2 : c ≠ minIndex a p := by omega
      rw [if_neg h1, if_neg h2] at hy
      rcases hc with hc | hc
      · subst hc; exact hmh.1 x y hx hy
      · subst hc; exact hmh.2 x y hx hy
    exact ⟨key _ (Or.inl rfl), key _ (Or.inr rfl)⟩

/-- Sift-down at `i` restores the order at every position from `k` on. -/
theorem siftDown_heap [LinearOrder α] (fuel : Nat) (a : List α) (k i : Nat) (hki : k ≤ i)
    (hf : a.length - i < fuel) (hinv : SiftInv a k i) :
    ∀ j, k ≤ j → HeapAt (siftDown fuel a i) j := by
  induction fuel generalizing a i with
  | zero => omega
  | succ n ih =>
    simp only [siftDown]
    by_cases h : minIndex a i = i
    · rw [if_pos h]
      intro j hkj
      by_cases hji : j = i
      · subst hji
        obtain ⟨_, s2, s3⟩ := minIndex_spec a j
        rw [h] at s2 s3
        exact ⟨s2, s3⟩
      · exact hinv.1 j hkj hji
    · rw [if_neg h]
      rcases minIndex_cases a i with h' | ⟨hm, hml, hil⟩
      · exact absurd h' h
      exact ih _ _ (by omega) (by simp; omega) (siftInv_step hki hinv h)

end SiftDown

/-! ## The heap predicate and `Heapify`, `BuildHeap` -/

section Build

variable {α : Type}

theorem leAt_of_length_le [LinearOrder α] {a : List α} {p c : Nat} (h : a.length ≤ c) :
    LeAt a p c := by
  intro x y _ hy
  rw [List.getElem?_eq_none h] at hy
  cases hy

theorem isMinHeap_iff [LinearOrder α] (a : List α) : IsMinHeap a ↔ ∀ j, HeapAt a j := by
  constructor
  · intro h j
    constructor
    · intro x y hx hy
      obtain ⟨hj, rfl⟩ := List.getElem?_eq_some.1 hx
      obtain ⟨hc, rfl⟩ := List.getElem?_eq_some.1 hy
      have e : (j + 1) * 2 - 1 = 2 * j + 1 := by omega
      have := (h ⟨j, hj⟩).1 (by simp only [e]; exact hc)
      simpa only [e] using this
    · intro x y hx hy
      obtain ⟨hj, rfl⟩ := List.getElem?_eq_some.1 hx
      obtain ⟨hc, rfl⟩ := List.getElem?_eq_some.1 hy
      have e : (j + 1) * 2 = 2 * j + 2 := by omega
      have := (h ⟨j, hj⟩).2 (by simp only [e]; exact hc)
      simpa only [e] using this
  · intro h i
    constructor
    · intro hc
      have e : (i.val + 1) * 2 - 1 = 2 * i.val + 1 := by omega
      have := (h i.val).1 _ _ (List.getElem?_eq_getElem i.isLt)
        (List.getElem?_eq_getElem (by omega : 2 * i.val + 1 < a.length))
      simpa only [e] using this
    · intro hc
      have e : (i.val + 1) * 2 = 2 * i.val + 2 := by omega
      have := (h i.val).2 _ _ (List.getElem?_eq_getElem i.isLt)
        (List.getElem?_eq_getElem (by omega : 2 * i.val + 2 < a.length))
      simpa only [e] using this

theorem Heapify_eq [LinearOrder α] (a : List α) (i : Nat)
    (hlen : a.length < 4611686018427387904) (hi : i + 1 < 4611686018427387904) :
    Heapify a (i : Int) = Run.ok (siftDown (a.length + 1) a i) :=
  HeapifyLoop_eq _ a i hlen hi (by omega)

theorem Heapify_zero_eq [LinearOrder α] (a : List α) (hlen : a.length < 4611686018427387904) :
    Heapify a 0 = Run.ok (siftDown (a.length + 1) a 0) :=
  Heapify_eq a 0 hlen (by omega)

@[simp] theorem buildLoop_length [LinearOrder α] (n : Nat) (a : List α) :
    (buildLoop n a).length = a.length := by
  induction n generalizing a with
  | zero => rfl
  | succ n ih => simp only [buildLoop]; rw [ih, siftDown_length]

theorem buildLoop_perm [LinearOrder α] (n : Nat) (a : List α) : (buildLoop n a).Perm a := by
  induction n generalizing a with
  | zero => exact List.Perm.refl _
  | succ n ih => simp only [buildLoop]; exact (ih _).trans (siftDown_perm _ _ _)

theorem BuildHeapLoop_eq [LinearOrder α] (n : Nat) (a : List α)
    (hlen : a.length < 4611686018427387904) (hn : n ≤ a.length) :
    BuildHeapLoop n a = Run.ok (buildLoop n a) := by
  induction n generalizing a with
  | zero => rfl
  | succ n ih =>
    simp only [BuildHeapLoop, buildLoop]
    rw [Heapify_eq a n hlen (by omega)]
    simp only [Run.ok_bind]
    exact ih _ (by simpa using hlen) (by simp; omega)

theorem halfLen_eq (a : List α) (hlen : a.length < 4611686018427387904) :
    (addInt (subInt (divInt (len a) 2) 1) 1).toNat = a.length / 2 := by
  have e0 : Int.tdiv (len a) 2 = (a.length : Int) / 2 :=
    Int.tdiv_eq_ediv (by simp [len]) (by decide)
  have e1 : divInt (len a) 2 = (a.length : Int) / 2 := by
    unfold divInt; rw [e0]; exact wrapInt_eq (by omega) (by omega)
  have e2 : subInt ((a.length : Int) / 2) 1 = (a.length : Int) / 2 - 1 :=
    wrapInt_eq (by omega) (by omega)
  have e3 : addInt ((a.length : Int) / 2 - 1) 1 = (a.length : Int) / 2 :=
    (wrapInt_eq (by omega) (by omega)).trans (by omega)
  rw [e1, e2, e3]
  omega

theorem BuildHeap_eq [LinearOrder α] (a : List α) (hlen : a.length < 4611686018427387904) :
    BuildHeap a = Run.ok (if a.length < 2 then a else buildLoop (a.length / 2) a) := by
  unfold BuildHeap
  by_cases h : a.length < 2
  · have : len a < 2 := by simp only [len]; omega
    rw [if_pos this, if_pos h]; rfl
  · have : ¬ len a < 2 := by simp only [len]; omega
    rw [if_neg this, if_neg h, halfLen_eq a hlen]
    exact BuildHeapLoop_eq _ a hlen (by omega)

theorem buildLoop_heap [LinearOrder α] (n : Nat) (a : List α)
    (h : ∀ j, n ≤ j → HeapAt a j) : ∀ j, HeapAt (buildLoop n a) j := by
  induction n generalizing a with
  | zero => intro j; exact h j (Nat.zero_le _)
  | succ n ih =>
    simp only [buildLoop]
    apply ih
    apply siftDown_heap _ a n n (le_refl _) (by omega)
    constructor
    · intro j hj hne
      exact h j (by omega)
    · intro p hp hc
      omega

theorem build_heap [LinearOrder α] (a : List α) :
    ∀ j, HeapAt (if a.length < 2 then a else buildLoop (a.length / 2) a) j := by
  by_cases h : a.length < 2
  · rw [if_pos h]
    intro j
    by_cases hj : j = 0
    · subst hj
      exact ⟨leAt_of_length_le (by omega), leAt_of_length_le (by omega)⟩
    · exact ⟨leAt_of_length_le (by omega), leAt_of_length_le (by omega)⟩
  · rw [if_neg h]
    apply buildLoop_heap
    intro j hj
    exact ⟨leAt_of_length_le (by omega), leAt_of_length_le (by omega)⟩

end Build

/-! ## Properties of the operations -/

/-- C1. For every sequence `S` (any length a slice can have, 0 and 1 included)
`BuildHeap(S)` returns and leaves a sequence with the min-heap property. -/
theorem BuildHeap_isMinHeap {α : Type} [LinearOrder α] (S : List α)
    (hlen : S.length < 2 ^ 62) :
    ∃ S', BuildHeap S = Run.ok S' ∧ IsMinHeap S' := by
  have hlen' : S.length < 4611686018427387904 := by omega
  exact ⟨_, BuildHeap_eq S hlen', (isMinHeap_iff _).2 (build_heap S)⟩

theorem BuildHeap_isMinHeap_witness :
    ([5, 3, 8, 1, 9, 2] : List Nat).length < 2 ^ 62 ∧
      ∃ S', BuildHeap ([5, 3, 8, 1, 9, 2] : List Nat) = Run.ok S' ∧ IsMinHeap S' :=
  ⟨by decide, BuildHeap_isMinHeap _ (by decide)⟩

/-! ## Sift-up and `Insert` -/

section SiftUp

variable {α : Type}

@[simp] theorem siftUp_length [LinearOrder α] (fuel : Nat) (a : List α) (j : Nat) :
    (siftUp fuel a j).length = a.length := by
  induction fuel generalizing a j with
  | zero => rfl
  | succ n ih =>
    simp only [siftUp]
    split_ifs
    · rfl
    · rw [ih, swapAt_length]
    · rfl

theorem siftUp_perm [LinearOrder α] (fuel : Nat) (a : List α) (j : Nat) :
    (siftUp fuel a j).Perm a := by
  induction fuel generalizing a j with
  | zero => exact List.Perm.refl _
  | succ n ih =>
    simp only [siftUp]
    split_ifs
    · exact List.Perm.refl _
    · exact (ih _ _).trans (swapAt_perm _ _ _)
    · exact List.Perm.refl _

theorem upInv_step [LinearOrder α] {a : List α} {j : Nat} (hj0 : j ≠ 0)
    (hinv : UpInv a j) (hlt : ltAt a j ((j - 1) / 2) = true) :
    UpInv (swapAt a ((j - 1) / 2) j) ((j - 1) / 2) := by
  obtain ⟨hjl, hpl⟩ := ltAt_bounds hlt
  have get := swapAt_get hpl hjl
  have hjp : LeAt a j ((j - 1) / 2) := leAt_of_ltAt hlt
  constructor
  · intro q c hc hcp x y hx hy
    rw [get] at hx hy
    by_cases hqj : q = j
    · subst hqj
      rw [if_pos rfl] at hx
      have h1 : c ≠ q := by omega
      rw [if_neg h1, if_neg hcp] at hy
      exact hinv.2 ((q - 1) / 2) c (by omega) hc x y hx hy
    · rw [if_neg hqj] at hx
      by_cases hqp : q = (j - 1) / 2
      · rw [if_pos hqp] at hx
        by_cases hcj : c = j
        · rw [if_pos hcj] at hy
          exact hjp x y hx hy
        · rw [if_neg hcj, if_neg hcp] at hy
          have h1 : LeAt a ((j - 1) / 2) c := hinv.1 _ c (by omega) hcj
          exact leAt_trans hpl hjp h1 x y hx hy
      · rw [if_neg hqp] at hx
        have hcj : c ≠ j := by omega
        rw [if_neg hcj, if_neg hcp] at hy
        exact hinv.1 q c hc hcj x y hx hy
  · intro g c hg hc x y hx hy
    rw [get] at hx hy
    have h1 : g ≠ j := by omega
    have h2 : g ≠ (j - 1) / 2 := by omega
    rw [if_neg h1, if_neg h2] at hx
    have hgp : LeAt a g ((j - 1) / 2) := hinv.1 g _ hg (by omega)
    by_cases hcj : c = j
    · rw [if_pos hcj] at hy
      exact hgp x y hx hy
    · have h3 : c ≠ (j - 1) / 2 := by omega
      rw [if_neg hcj, if_neg h3] at hy
      have h4 : LeAt a ((j - 1) / 2) c := hinv.1 _ c hc hcj
      exact leAt_trans hpl hgp h4 x y hx hy

/-- Sift-up at `j` restores the order at every position. -/
theorem siftUp_heap [LinearOrder α] (fuel : Nat) (a : List α) (j : Nat) (hf : j < fuel)
    (hinv : UpInv a j) : ∀ p, HeapAt (siftUp fuel a j) p := by
  induction fuel generalizing a j with
  | zero => omega
  | succ n ih =>
    simp only [siftUp]
    by_cases hj0 : j = 0
    · rw [if_pos hj0]
      intro p
      exact ⟨hinv.1 p _ (Or.inl rfl) (by omega), hinv.1 p _ (Or.inr rfl) (by omega)⟩
    · rw [if_neg hj0]
      by_cases hlt : ltAt a j ((j - 1) / 2) = true
      · rw [if_pos hlt]
        exact ih _ _ (by omega) (upInv_step hj0 hinv hlt)
      · rw [if_neg hlt]
        have hpj : LeAt a ((j - 1) / 2) j := ltAt_false hlt
        have all : ∀ p c, (c = 2 * p + 1 ∨ c = 2 * p + 2) → LeAt a p c := by
          intro p c hc
          by_cases hcj : c = j
          · have : p = (j - 1) / 2 := by omega
            rw [this, hcj]; exact hpj
          · exact hinv.1 p c hc hcj
        intro p
        exact ⟨all p _ (Or.inl rfl), all p _ (Or.inr rfl)⟩

theorem upInv_append [LinearOrder α] (a : List α) (x : α) (h : ∀ j, HeapAt a j) :
    UpInv (a ++ [x]) a.length := by
  constructor
  · intro p c hc hcj u v hu hv
    by_cases hcl : c < a.length
    · rw [List.getElem?_append_left (by omega)] at hu
      rw [List.getElem?_append_left hcl] at hv
      rcases hc with hc | hc
      · subst hc; exact (h p).1 u v hu hv
      · subst hc; exact (h p).2 u v hu hv
    · rw [List.getElem?_eq_none (by simp; omega)] at hv
      cases hv
  · intro g c _ hc
    exact leAt_of_length_le (by simp; omega)

theorem parent_eq (j : Nat) (hj : j + 1 < 9223372036854775808) :
    subInt (divInt (addInt (j : Int) 1) 2) 1 = (((j + 1) / 2 : Nat) : Int) - 1 := by
  have e1 : addInt (j : Int) 1 = (j : Int) + 1 := wrapInt_eq (by omega) (by omega)
  have e0 : Int.tdiv ((j : Int) + 1) 2 = ((j : Int) + 1) / 2 :=
    Int.tdiv_eq_ediv (by omega) (by decide)
  have e2 : divInt ((j : Int) + 1) 2 = ((j : Int) + 1) / 2 := by
    unfold divInt; rw [e0]; exact wrapInt_eq (by omega) (by omega)
  have e3 : subInt (((j : Int) + 1) / 2) 1 = ((j : Int) + 1) / 2 - 1 :=
    wrapInt_eq (by omega) (by omega)
  rw [e1, e2, e3]; push_cast; rfl

theorem lessAt_natCast [LinearOrder α] {a : List α} {j k : Nat} (hj : j < a.length)
    (hk : k < a.length) : lessAt a (j : Int) (k : Int) = Run.ok (ltAt a j k) := by
  simp [lessAt, ltAt, index_natCast, List.getElem?_eq_getElem hj, List.getElem?_eq_getElem hk]

theorem InsertLoop_eq [LinearOrder α] (fuel : Nat) (a : List α) (j : Nat)
    (hlen : a.length < 9223372036854775808) (hj : j < a.length) (hf : j < fuel) :
    InsertLoop fuel a (j : Int) ((((j + 1) / 2 : Nat) : Int) - 1)
      = Run.ok (siftUp fuel a j) := by
  induction fuel generalizing a j with
  | zero => omega
  | succ n ih =>
    simp only [InsertLoop, siftUp]
    by_cases hj0 : j = 0
    · subst hj0
      simp
    · have hp : (((j + 1) / 2 : Nat) : Int) - 1 = (((j - 1) / 2 : Nat) : Int) := by omega
      rw [hp]
      have hge : (((j - 1) / 2 : Nat) : Int) ≥ 0 := by omega
      rw [if_pos hge, if_neg hj0, lessAt_natCast hj (by omega)]
      simp only [Run.ok_bind]
      by_cases hlt : ltAt a j ((j - 1) / 2) = true
      · rw [if_pos hlt, if_pos hlt, swap_natCast (by omega) hj]
        simp only [Run.ok_bind]
        rw [parent_eq _ (by omega)]
        exact ih _ _ (by simpa using hlen) (by simp; omega) (by omega)
      · rw [if_neg hlt, if_neg hlt]; rfl

theorem Insert_eq [LinearOrder α] (a : List α) (x : α) (hlen : a.length < 4611686018427387904) :
    Insert a x = Run.ok (siftUp (a.length + 2) (a ++ [x]) a.length) := by
  unfold Insert
  have e1 : subInt (len (a ++ [x])) 1 = (a.length : Int) := by
    have : len (a ++ [x]) = (a.length : Int) + 1 := by simp [len]
    rw [this]; exact (wrapInt_eq (by omega) (by omega)).trans (by omega)
  have e2 : subInt (divInt (len (a ++ [x])) 2) 1 = (((a.length + 1) / 2 : Nat) : Int) - 1 := by
    have : len (a ++ [x]) = addInt (a.length : Int) 1 := by
      simp only [len, addInt]
      rw [wrapInt_eq (by omega) (by omega)]
      simp
    rw [this]; exact parent_eq _ (by omega)
  simp only [e1, e2]
  have := InsertLoop_eq ((a ++ [x]).length + 1) (a ++ [x]) a.length (by simp; omega)
    (by simp) (by simp; omega)
  simpa using this

end SiftUp

/-- C2. `Insert(S, x)` on a sequence with the min-heap property returns a
sequence with the min-heap property over its whole length. -/
theorem Insert_isMinHeap {α : Type} [LinearOrder α] (S : List α) (x : α)
    (hlen : S.length < 2 ^ 62) (hS : IsMinHeap S) :
    ∃ S', Insert S x = Run.ok S' ∧ IsMinHeap S' ∧ (S = [] → S' = [x]) := by
  have hlen' : S.length < 4611686018427387904 := by omega
  refine ⟨_, Insert_eq S x hlen', ?_, ?_⟩
  · exact (isMinHeap_iff _).2
      (siftUp_heap _ _ _ (by omega) (upInv_append S x ((isMinHeap_iff S).1 hS)))
  · intro h
    subst h
    rfl

theorem Insert_isMinHeap_witness :
    ([1, 3, 2, 5, 9, 8] : List Nat).length < 2 ^ 62 ∧ IsMinHeap ([1, 3, 2, 5, 9, 8] : List Nat) ∧
      ∃ S', Insert ([1, 3, 2, 5, 9, 8] : List Nat) 0 = Run.ok S' ∧ IsMinHeap S' ∧
        (([1, 3, 2, 5, 9, 8] : List Nat) = [] → S' = [0]) :=
  ⟨by decide, by decide, Insert_isMinHeap _ 0 (by decide) (by decide)⟩

/-! ## `ExtractMin` and `Replace` -/

section Extract

variable {α : Type}

theorem index_zero {a : List α} {x : α} (h : a[0]? = some x) : index a 0 = Run.ok x := by
  have := index_of_get h
  simpa using this

theorem ExtractMin_eq [LinearOrder α] [Inhabited α] (a : List α) (m z : α)
    (hlen : a.length < 4611686018427387904) (hm : a[0]? = some m)
    (hz : a[a.length - 1]? = some z) :
    ExtractMin a = Run.ok (siftDown a.length (popRoot a z) 0, m, none) := by
  have hpos : 0 < a.length := (List.getElem?_eq_some.1 hm).1
  have h0 : ¬ len a = 0 := by simp only [len]; omega
  have e1 : subInt (len a) 1 = ((a.length - 1 : Nat) : Int) := by
    simp only [len]
    exact (wrapInt_eq (by omega) (by omega)).trans (by omega)
  have e2 : store a 0 z = Run.ok (a.set 0 z) := by
    have := store_natCast hpos z
    simpa using this
  have e3 : slice (a.set 0 z) ((a.length - 1 : Nat) : Int) = Run.ok (popRoot a z) := by
    simp [slice, popRoot, len]
  have e4 : subInt (len (a.set 0 z)) 1 = ((a.length - 1 : Nat) : Int) := by
    have : len (a.set 0 z) = len a := by simp [len]
    rw [this, e1]
  have e5 : (popRoot a z).length + 1 = a.length := by
    simp [popRoot]; omega
  have e6 := Heapify_zero_eq (popRoot a z) (by omega)
  rw [e5] at e6
  unfold ExtractMin
  rw [if_neg h0, index_zero hm, e1, index_of_get hz]
  simp only [Run.ok_bind]
  rw [e2]
  simp only [Run.ok_bind]
  rw [e4, e3]
  simp only [Run.ok_bind]
  rw [e6]
  rfl

theorem Replace_eq [LinearOrder α] [Inhabited α] (a : List α) (m x : α)
    (hlen : a.length < 4611686018427387904) (hm : a[0]? = some m) :
    Replace a x = Run.ok (siftDown (a.length + 1) (a.set 0 x) 0, m, none) := by
  have hpos : 0 < a.length := (List.getElem?_eq_some.1 hm).1
  have h0 : ¬ len a = 0 := by simp only [len]; omega
  have e2 : store a 0 x = Run.ok (a.set 0 x) := by
    have := store_natCast hpos x
    simpa using this
  have e6 := Heapify_zero_eq (a.set 0 x) (by simpa using hlen)
  rw [List.length_set] at e6
  unfold Replace
  rw [if_neg h0, index_zero hm]
  simp only [Run.ok_bind]
  rw [e2]
  simp only [Run.ok_bind]
  rw [e6]
  rfl

/-- A sequence that agrees with a heap away from the root satisfies the
sift-down precondition at the root. -/
theorem siftInv_root [LinearOrder α] {a b : List α}
    (hb : ∀ c y, c ≠ 0 → b[c]? = some y → a[c]? = some y) (ha : ∀ j, HeapAt a j) :
    SiftInv b 0 0 := by
  constructor
  · intro j _ hj
    exact ⟨fun x y hx hy => (ha j).1 x y (hb j x hj hx) (hb _ y (by omega) hy),
      fun x y hx hy => (ha j).2 x y (hb j x hj hx) (hb _ y (by omega) hy)⟩
  · intro p _ hp
    omega

theorem popRoot_get (a : List α) (z : α) (c : Nat) (y : α) (hc : c ≠ 0)
    (h : (popRoot a z)[c]? = some y) : a[c]? = some y := by
  unfold popRoot at h
  rw [List.getElem?_take] at h
  split at h
  · rw [List.getElem?_set_ne (by omega)] at h
    exact h
  · cases h

theorem set_zero_get (a : List α) (x : α) (c : Nat) (y : α) (hc : c ≠ 0)
    (h : (a.set 0 x)[c]? = some y) : a[c]? = some y := by
  rw [List.getElem?_set_ne (by omega)] at h
  exact h

theorem popRoot_perm (a : List α) (m z : α) (hm : a[0]? = some m)
    (hz : a[a.length - 1]? = some z) : (m :: popRoot a z).Perm a := by
  have hpos : 0 < a.length := (List.getElem?_eq_some.1 hm).1
  have hd : List.drop (a.length - 1) (a.set 0 z) = [z] := by
    apply List.ext_getElem?
    intro n
    rw [List.getElem?_drop]
    cases n with
    | zero =>
      simp only [Nat.add_zero, List.getElem?_cons_zero]
      by_cases h1 : a.length - 1 = 0
      · rw [h1, List.getElem?_set_self hpos]
      · rw [List.getElem?_set_ne (by omega)]; exact hz
    | succ k =>
      rw [List.getElem?_eq_none (by simp; omega)]
      simp
  have hsplit : popRoot a z ++ [z] = a.set 0 z := by
    unfold popRoot
    rw [← hd]
    exact List.take_append_drop _ _
  have h1 : (m :: a.set 0 z).Perm (z :: a) := set_perm hm z
  rw [← hsplit] at h1
  have h2 : (m :: (popRoot a z ++ [z])).Perm (z :: m :: popRoot a z) := by
    have : (popRoot a z ++ [z]).Perm (z :: popRoot a z) := List.perm_append_singleton _ _
    exact (this.cons m).trans (List.Perm.swap z m _)
  exact (h2.symm.trans h1).cons_inv

/-- In a heap the root is `≤` every entry. -/
theorem root_le [LinearOrder α] {a : List α} (ha : ∀ j, HeapAt a j) (n : Nat) :
    LeAt a 0 n := by
  induction n using Nat.strong_induction_on with
  | _ n ih =>
    by_cases hn : n = 0
    · subst hn; exact leAt_refl _ _
    · intro x y hx hy
      have hnl : n < a.length := (List.getElem?_eq_some.1 hy).1
      have hp : LeAt a ((n - 1) / 2) n := by
        rcases Nat.even_or_odd n with ⟨k, hk⟩ | ⟨k, hk⟩
        · have e : n = 2 * ((n - 1) / 2) + 2 := by omega
          have := (ha ((n - 1) / 2)).2
          rw [← e] at this; exact this
        · have e : n = 2 * ((n - 1) / 2) + 1 := by omega
          have := (ha ((n - 1) / 2)).1
          rw [← e] at this; exact this
      exact leAt_trans (by omega) (ih ((n - 1) / 2) (by omega)) hp x y hx hy

theorem root_le_mem [LinearOrder α] {a : List α} (ha : ∀ j, HeapAt a j) {x y : α}
    (hx : a[0]? = some x) (hy : y ∈ a) : x ≤ y := by
  obtain ⟨n, hn⟩ := List.mem_iff_getElem?.1 hy
  exact root_le ha n x y hx hn

end Extract

/-- C3. `ExtractMin(S)` on a non-empty sequence with the min-heap property
returns, without error, a sequence with the min-heap property (the empty
sequence when `S` has one element). -/
theorem ExtractMin_isMinHeap {α : Type} [LinearOrder α] [Inhabited α] (S : List α)
    (hlen : S.length < 2 ^ 62) (hne : S ≠ []) (hS : IsMinHeap S) :
    ∃ S' m, ExtractMin S = Run.ok (S', m, none) ∧ IsMinHeap S' ∧
      (S.length = 1 → S' = []) := by
  have hlen' : S.length < 4611686018427387904 := by omega
  have hpos : 0 < S.length := List.length_pos.2 hne
  have hm := List.getElem?_eq_getElem hpos
  have hz := List.getElem?_eq_getElem (by omega : S.length - 1 < S.length)
  refine ⟨_, _, ExtractMin_eq S _ _ hlen' hm hz, ?_, ?_⟩
  · refine (isMinHeap_iff _).2 (fun j => ?_)
    have hl : (popRoot S S[S.length - 1]).length + 1 = S.length := by simp [popRoot]; omega
    exact siftDown_heap _ _ 0 0 (le_refl _) (by omega)
      (siftInv_root (popRoot_get S _) ((isMinHeap_iff S).1 hS)) j (Nat.zero_le _)
  · intro h1
    apply List.eq_nil_of_length_eq_zero
    simp [popRoot, h1]

theorem ExtractMin_isMinHeap_witness :
    ([0, 3, 1, 5, 9, 8, 2] : List Nat).length < 2 ^ 62 ∧ ([0, 3, 1, 5, 9, 8, 2] : List Nat) ≠ [] ∧
      IsMinHeap ([0, 3, 1, 5, 9, 8, 2] : List Nat) ∧
      ∃ S' m, ExtractMin ([0, 3, 1, 5, 9, 8, 2] : List Nat) = Run.ok (S', m, none) ∧
        IsMinHeap S' ∧ (([0, 3, 1, 5, 9, 8, 2] : List Nat).length = 1 → S' = []) :=
  ⟨by decide, by decide, by decide, ExtractMin_isMinHeap _ (by decide) (by decide) (by decide)⟩

/-- C4. `Replace(S, x)` on a non-empty sequence with the min-heap property
returns, without error and for every `x`, a sequence with the min-heap
property. -/
theorem Replace_isMinHeap {α : Type} [LinearOrder α] [Inhabited α] (S : List α) (x : α)
    (hlen : S.length < 2 ^ 62) (hne : S ≠ []) (hS : IsMinHeap S) :
    ∃ S' m, Replace S x = Run.ok (S', m, none) ∧ IsMinHeap S' := by
  have hlen' : S.length < 4611686018427387904 := by omega
  have hpos : 0 < S.length := List.length_pos.2 hne
  have hm := List.getElem?_eq_getElem hpos
  refine ⟨_, _, Replace_eq S _ x hlen' hm, ?_⟩
  refine (isMinHeap_iff _).2 (fun j => ?_)
  exact siftDown_heap _ _ 0 0 (le_refl _) (by simp)
    (siftInv_root (set_zero_get S x) ((isMinHeap_iff S).1 hS)) j (Nat.zero_le _)

theorem Replace_isMinHeap_witness :
    ([1, 3, 2, 5, 9, 8] : List Nat).length < 2 ^ 62 ∧ ([1, 3, 2, 5, 9, 8] : List Nat) ≠ [] ∧
      IsMinHeap ([1, 3, 2, 5, 9, 8] : List Nat) ∧
      ∃ S' m, Replace ([1, 3, 2, 5, 9, 8] : List Nat) 100 = Run.ok (S', m, none) ∧
        IsMinHeap S' :=
  ⟨by decide, by decide, by decide, Replace_isMinHeap _ 100 (by decide) (by decide) (by decide)⟩

section Sorting

variable {α : Type}

theorem mem_of_get {a : List α} {n : Nat} {x : α} (h : a[n]? = some x) : x ∈ a :=
  List.mem_iff_getElem?.2 ⟨n, h⟩

/-- Behaviour of `ExtractMin` on a non-empty heap, in one statement. -/
theorem ExtractMin_spec [LinearOrder α] [Inhabited α] (S : List α)
    (hlen : S.length < 4611686018427387904) (hne : S ≠ []) (hS : ∀ j, HeapAt S j) :
    ∃ S' m, ExtractMin S = Run.ok (S', m, none) ∧ S[0]? = some m ∧ (∀ j, HeapAt S' j) ∧
      (m :: S').Perm S ∧ S'.length + 1 = S.length := by
  have hpos : 0 < S.length := List.length_pos.2 hne
  have hm := List.getElem?_eq_getElem hpos
  have hz := List.getElem?_eq_getElem (by omega : S.length - 1 < S.length)
  have hl : (popRoot S S[S.length - 1]).length + 1 = S.length := by simp [popRoot]; omega
  refine ⟨_, _, ExtractMin_eq S _ _ hlen hm hz, hm, ?_, ?_, ?_⟩
  · intro j
    exact siftDown_heap _ _ 0 0 (le_refl _) (by omega)
      (siftInv_root (popRoot_get S _) hS) j (Nat.zero_le _)
  · exact ((siftDown_perm _ _ _).cons _).trans (popRoot_perm S _ _ hm hz)
  · rw [siftDown_length]; exact hl

/-- Behaviour of `ExtractMin` on any non-empty sequence. -/
theorem ExtractMin_run [LinearOrder α] [Inhabited α] (S : List α)
    (hlen : S.length < 4611686018427387904) (hne : S ≠ []) :
    ∃ S' m, ExtractMin S = Run.ok (S', m, none) ∧ S[0]? = some m ∧
      S'.length = S.length - 1 := by
  have hpos : 0 < S.length := List.length_pos.2 hne
  have hm := List.getElem?_eq_getElem hpos
  have hz := List.getElem?_eq_getElem (by omega : S.length - 1 < S.length)
  refine ⟨_, _, ExtractMin_eq S _ _ hlen hm hz, hm, ?_⟩
  rw [siftDown_length]; simp [popRoot]

theorem ExtractAllLoop_spec [LinearOrder α] [Inhabited α] (fuel : Nat) (a out : List α)
    (hlen : a.length < 4611686018427387904) (hf : a.length < fuel) (ha : ∀ j, HeapAt a j) :
    ∃ res, ExtractAllLoop fuel a out = Run.ok (out ++ res) ∧ res.Perm a ∧
      res.Sorted (· ≤ ·) := by
  induction fuel generalizing a out with
  | zero => omega
  | succ n ih =>
    simp only [ExtractAllLoop]
    by_cases hnil : a = []
    · subst hnil
      exact ⟨[], by simp [len], List.Perm.refl _, List.sorted_nil⟩
    · have h0 : ¬ len a = 0 := by
        simp only [len]
        have := List.length_pos.2 hnil
        omega
      obtain ⟨S', m, hrun, hm, hheap, hperm, hl⟩ := ExtractMin_spec a hlen hnil ha
      obtain ⟨res, hres, hp, hs⟩ := ih S' (out ++ [m]) (by omega) (by omega) hheap
      refine ⟨m :: res, ?_, (hp.cons m).trans hperm, ?_⟩
      · rw [if_neg h0, hrun]
        simp only [Run.ok_bind]
        rw [hres]
        simp
      · refine List.sorted_cons.2 ⟨?_, hs⟩
        intro b hb
        have hb' : b ∈ a := hperm.subset (List.mem_cons_of_mem _ (hp.subset hb))
        exact root_le_mem ha hm hb'

end Sorting

/-- C5. On a non-empty heap `ExtractMin` returns the minimum of `S` (an element
of `S` that is `≤` every element of `S`), and the root of a non-empty returned
sequence is the minimum of the remaining elements, `S` with one occurrence of
the returned element removed. -/
theorem ExtractMin_returns_min {α : Type} [LinearOrder α] [Inhabited α] (S : List α)
    (hlen : S.length < 2 ^ 62) (hne : S ≠ []) (hS : IsMinHeap S) :
    ∃ S' m, ExtractMin S = Run.ok (S', m, none) ∧ m ∈ S ∧ (∀ x ∈ S, m ≤ x) ∧
      S'.Perm (S.erase m) ∧
      (S' ≠ [] → ∃ r, S'[0]? = some r ∧ r ∈ S.erase m ∧ ∀ x ∈ S.erase m, r ≤ x) := by
  have hS' := (isMinHeap_iff S).1 hS
  obtain ⟨S', m, hrun, hm, hheap, hperm, _⟩ := ExtractMin_spec S (by omega) hne hS'
  have hrest : S'.Perm (S.erase m) := by
    have := hperm.erase m
    rwa [List.erase_cons_head] at this
  refine ⟨S', m, hrun, mem_of_get hm, fun x hx => root_le_mem hS' hm hx, hrest, ?_⟩
  intro hne'
  have hr := List.getElem?_eq_getElem (List.length_pos.2 hne')
  refine ⟨_, hr, hrest.subset (mem_of_get hr), ?_⟩
  intro x hx
  exact root_le_mem hheap hr (hrest.symm.subset hx)

theorem ExtractMin_returns_min_witness :
    ([0, 3, 1, 5, 9, 8, 2] : List Nat).length < 2 ^ 62 ∧ ([0, 3, 1, 5, 9, 8, 2] : List Nat) ≠ [] ∧
      IsMinHeap ([0, 3, 1, 5, 9, 8, 2] : List Nat) ∧
      ∃ S' m, ExtractMin ([0, 3, 1, 5, 9, 8, 2] : List Nat) = Run.ok (S', m, none) ∧
        m ∈ ([0, 3, 1, 5, 9, 8, 2] : List Nat) ∧
        (∀ x ∈ ([0, 3, 1, 5, 9, 8, 2] : List Nat), m ≤ x) ∧
        S'.Perm (([0, 3, 1, 5, 9, 8, 2] : List Nat).erase m) ∧
        (S' ≠ [] → ∃ r, S'[0]? = some r ∧ r ∈ ([0, 3, 1, 5, 9, 8, 2] : List Nat).erase m ∧
          ∀ x ∈ ([0, 3, 1, 5, 9, 8, 2] : List Nat).erase m, r ≤ x) :=
  ⟨by decide, by decide, by decide,
    ExtractMin_returns_min _ (by decide) (by decide) (by decide)⟩

/-- C6. Heap-sort round trip: `BuildHeap(S)` followed by `ExtractMin` until the
sequence is empty returns, and the extracted elements in extraction order are
`len(S)` many and equal `sorted(S)`, the non-decreasing permutation of `S`. -/
theorem heapSort_sorted {α : Type} [LinearOrder α] [Inhabited α] (S : List α)
    (hlen : S.length < 2 ^ 62) :
    ∃ out, heapSort S = Run.ok out ∧ out.length = S.length ∧
      out = S.insertionSort (· ≤ ·) ∧ out.Sorted (· ≤ ·) ∧ out.Perm S := by
  have hlen' : S.length < 4611686018427387904 := by omega
  have hb := BuildHeap_eq S hlen'
  have hperm : (if S.length < 2 then S else buildLoop (S.length / 2) S).Perm S := by
    split
    · exact List.Perm.refl _
    · exact buildLoop_perm _ _
  obtain ⟨res, hres, hp, hs⟩ := ExtractAllLoop_spec
    ((if S.length < 2 then S else buildLoop (S.length / 2) S).length + 1)
    (if S.length < 2 then S else buildLoop (S.length / 2) S) []
    (by rw [hperm.length_eq]; exact hlen') (by omega) (build_heap S)
  have hpS : res.Perm S := hp.trans hperm
  refine ⟨res, ?_, hpS.length_eq, ?_, hs, hpS⟩
  · unfold heapSort
    rw [hb]
    simp only [Run.ok_bind]
    rw [hres]
    simp
  · exact List.eq_of_perm_of_sorted (hpS.trans (List.perm_insertionSort _ S).symm) hs
      (List.sorted_insertionSort _ S)

theorem heapSort_sorted_witness :
    ([5, 3, 8, 1, 9, 2] : List Nat).length < 2 ^ 62 ∧
      ∃ out, heapSort ([5, 3, 8, 1, 9, 2] : List Nat) = Run.ok out ∧
        out.length = ([5, 3, 8, 1, 9, 2] : List Nat).length ∧
        out = ([5, 3, 8, 1, 9, 2] : List Nat).insertionSort (· ≤ ·) ∧
        out.Sorted (· ≤ ·) ∧ out.Perm [5, 3, 8, 1, 9, 2] :=
  ⟨by decide, heapSort_sorted _ (by decide)⟩

/-- C7. For every non-empty `S`, after `BuildHeap(S)` the element at index 0 is
`min(S)`, the minimum of the elements of the sequence before the call. -/
theorem BuildHeap_root_min {α : Type} [LinearOrder α] (S : List α)
    (hlen : S.length < 2 ^ 62) (hne : S ≠ []) :
    ∃ S' r, BuildHeap S = Run.ok S' ∧ S'[0]? = some r ∧ r ∈ S ∧ (∀ x ∈ S, r ≤ x) ∧
      S.minimum = (r : WithTop α) := by
  have hlen' : S.length < 4611686018427387904 := by omega
  have hperm : (if S.length < 2 then S else buildLoop (S.length / 2) S).Perm S := by
    split
    · exact List.Perm.refl _
    · exact buildLoop_perm _ _
  have hpos : 0 < (if S.length < 2 then S else buildLoop (S.length / 2) S).length := by
    rw [hperm.length_eq]; exact List.length_pos.2 hne
  have hr := List.getElem?_eq_getElem hpos
  have hmem := hperm.subset (mem_of_get hr)
  have hle : ∀ x ∈ S, _ ≤ x := fun x hx =>
    root_le_mem (build_heap S) hr (hperm.symm.subset hx)
  exact ⟨_, _, BuildHeap_eq S hlen', hr, hmem, hle, List.minimum_eq_coe_iff.2 ⟨hmem, hle⟩⟩

theorem BuildHeap_root_min_witness :
    ([5, 3, 8, 1, 9, 2] : List Nat).length < 2 ^ 62 ∧ ([5, 3, 8, 1, 9, 2] : List Nat) ≠ [] ∧
      ∃ S' r, BuildHeap ([5, 3, 8, 1, 9, 2] : List Nat) = Run.ok S' ∧ S'[0]? = some r ∧
        r ∈ ([5, 3, 8, 1, 9, 2] : List Nat) ∧ (∀ x ∈ ([5, 3, 8, 1, 9, 2] : List Nat), r ≤ x) ∧
        ([5, 3, 8, 1, 9, 2] : List Nat).minimum = (r : WithTop Nat) :=
  ⟨by decide, by decide, BuildHeap_root_min _ (by decide) (by decide)⟩

/-- C8. On a non-empty sequence with the min-heap property `FindMin` returns,
without error, the element at index 0, which is `≤` every element of the
sequence, and the sequence is left as it was. -/
theorem FindMin_min {α : Type} [LinearOrder α] [Inhabited α] (S : List α)
    (hne : S ≠ []) (hS : IsMinHeap S) :
    ∃ m, FindMin S = Run.ok (S, m, none) ∧ S[0]? = some m ∧ m ∈ S ∧ ∀ x ∈ S, m ≤ x := by
  have hpos : 0 < S.length := List.length_pos.2 hne
  have hm := List.getElem?_eq_getElem hpos
  have h0 : ¬ len S = 0 := by simp only [len]; omega
  refine ⟨_, ?_, hm, mem_of_get hm,
    fun x hx => root_le_mem ((isMinHeap_iff S).1 hS) hm hx⟩
  unfold FindMin
  rw [if_neg h0, index_zero hm]
  rfl

theorem FindMin_min_witness :
    ([1, 3, 2, 5, 9, 8] : List Nat) ≠ [] ∧ IsMinHeap ([1, 3, 2, 5, 9, 8] : List Nat) ∧
      ∃ m, FindMin ([1, 3, 2, 5, 9, 8] : List Nat) = Run.ok ([1, 3, 2, 5, 9, 8], m, none) ∧
        ([1, 3, 2, 5, 9, 8] : List Nat)[0]? = some m ∧ m ∈ ([1, 3, 2, 5, 9, 8] : List Nat) ∧
        ∀ x ∈ ([1, 3, 2, 5, 9, 8] : List Nat), m ≤ x :=
  ⟨by decide, by decide, FindMin_min _ (by decide) (by decide)⟩

/-- C9. `FindMin`, `ExtractMin` and `Replace` return an error exactly when the
input sequence is empty; on the empty sequence they return it unchanged
together with the default value of the element type, and on a non-empty
sequence they return no error. -/
theorem error_iff_empty {α : Type} [LinearOrder α] [Inhabited α] (S : List α) (x : α)
    (hlen : S.length < 2 ^ 62) :
    (∃ a m e, FindMin S = Run.ok (a, m, e) ∧ (e ≠ none ↔ S = []) ∧
        (S = [] → a = [] ∧ m = default)) ∧
      (∃ a m e, ExtractMin S = Run.ok (a, m, e) ∧ (e ≠ none ↔ S = []) ∧
        (S = [] → a = [] ∧ m = default)) ∧
      (∃ a m e, Replace S x = Run.ok (a, m, e) ∧ (e ≠ none ↔ S = []) ∧
        (S = [] → a = [] ∧ m = default)) := by
  have hlen' : S.length < 4611686018427387904 := by omega
  by_cases hS : S = []
  · subst hS
    refine ⟨⟨[], default, some "in FindMin(): array can not be empty", rfl, ?_, ?_⟩,
      ⟨[], default, some "in ExtractMin(): array can not be empty", rfl, ?_, ?_⟩,
      ⟨[], default, some "in Replace(): array can not be empty", rfl, ?_, ?_⟩⟩ <;> simp
  · have hpos : 0 < S.length := List.length_pos.2 hS
    have hm := List.getElem?_eq_getElem hpos
    have h0 : ¬ len S = 0 := by simp only [len]; omega
    obtain ⟨S', m, hrun, _, _⟩ := ExtractMin_run S hlen' hS
    refine ⟨⟨S, S[0], none, ?_, ?_, ?_⟩, ⟨S', m, none, hrun, ?_, ?_⟩,
      ⟨_, _, none, Replace_eq S _ x hlen' hm, ?_, ?_⟩⟩
    · unfold FindMin
      rw [if_neg h0, index_zero hm]
      rfl
    all_goals simp [hS]

theorem error_iff_empty_witness :
    ([] : List Nat).length < 2 ^ 62 ∧
      (∃ a m e, FindMin ([] : List Nat) = Run.ok (a, m, e) ∧ (e ≠ none ↔ ([] : List Nat) = []) ∧
        (([] : List Nat) = [] → a = [] ∧ m = default)) ∧
      (∃ a m e, ExtractMin ([] : List Nat) = Run.ok (a, m, e) ∧
        (e ≠ none ↔ ([] : List Nat) = []) ∧ (([] : List Nat) = [] → a = [] ∧ m = default)) ∧
      (∃ a m e, Replace ([] : List Nat) 7 = Run.ok (a, m, e) ∧
        (e ≠ none ↔ ([] : List Nat) = []) ∧ (([] : List Nat) = [] → a = [] ∧ m = default)) :=
  ⟨by decide, error_iff_empty _ 7 (by decide)⟩

/-- C10. Size laws: `Insert` returns a sequence one longer, on a non-empty
sequence `ExtractMin` returns a sequence one shorter and `Replace` one of the
same length, and `BuildHeap` keeps the length. -/
theorem size_laws {α : Type} [LinearOrder α] [Inhabited α] (S : List α) (x : α)
    (hlen : S.length < 2 ^ 62) :
    (∃ S', Insert S x = Run.ok S' ∧ S'.length = S.length + 1) ∧
      (S ≠ [] → ∃ S' m e, ExtractMin S = Run.ok (S', m, e) ∧ S'.length = S.length - 1) ∧
      (S ≠ [] → ∃ S' m e, Replace S x = Run.ok (S', m, e) ∧ S'.length = S.length) ∧
      (∃ S', BuildHeap S = Run.ok S' ∧ S'.length = S.length) := by
  have hlen' : S.length < 4611686018427387904 := by omega
  refine ⟨⟨_, Insert_eq S x hlen', by simp⟩, ?_, ?_, ⟨_, BuildHeap_eq S hlen', ?_⟩⟩
  · intro hS
    obtain ⟨S', m, hrun, _, hl⟩ := ExtractMin_run S hlen' hS
    exact ⟨S', m, none, hrun, hl⟩
  · intro hS
    have hm := List.getElem?_eq_getElem (List.length_pos.2 hS)
    exact ⟨_, _, none, Replace_eq S _ x hlen' hm, by simp⟩
  · split
    · rfl
    · simp

theorem size_laws_witness :
    ([1, 3, 2, 5, 9, 8] : List Nat).length < 2 ^ 62 ∧
      (∃ S', Insert ([1, 3, 2, 5, 9, 8] : List Nat) 0 = Run.ok S' ∧
        S'.length = ([1, 3, 2, 5, 9, 8] : List Nat).length + 1) ∧
      (([1, 3, 2, 5, 9, 8] : List Nat) ≠ [] →
        ∃ S' m e, ExtractMin ([1, 3, 2, 5, 9, 8] : List Nat) = Run.ok (S', m, e) ∧
          S'.length = ([1, 3, 2, 5, 9, 8] : List Nat).length - 1) ∧
      (([1, 3, 2, 5, 9, 8] : List Nat) ≠ [] →
        ∃ S' m e, Replace ([1, 3, 2, 5, 9, 8] : List Nat) 0 = Run.ok (S', m, e) ∧
          S'.length = ([1, 3, 2, 5, 9, 8] : List Nat).length) ∧
      (∃ S', BuildHeap ([1, 3, 2, 5, 9, 8] : List Nat) = Run.ok S' ∧
        S'.length = ([1, 3, 2, 5, 9, 8] : List Nat).length) :=
  ⟨by decide, size_laws _ 0 (by decide)⟩

/-! ## Runs with an arbitrary index -/

section AnyIndex

variable {α : Type}

@[simp] theorem Run.panic_bind {β γ : Type} (f : β → Run γ) :
    ((Run.panic : Run β) >>= f) = Run.panic := rfl

@[simp] theorem Run.timeout_bind {β γ : Type} (f : β → Run γ) :
    ((Run.timeout : Run β) >>= f) = Run.timeout := rfl

theorem index_cases (a : List α) (k : Int) : index a k = Run.panic ∨ ∃ x, index a k = Run.ok x := by
  unfold index
  split
  · split
    · exact Or.inr ⟨_, rfl⟩
    · exact Or.inl rfl
  · exact Or.inl rfl

theorem index_out {a : List α} {i : Int} (h : i < 0 ∨ len a ≤ i) : index a i = Run.panic := by
  unfold index
  split
  · rename_i h0
    have : a.length ≤ i.toNat := by
      simp only [len] at h
      omega
    rw [List.getElem?_eq_none this]
  · rfl

theorem lessAt_out [LinearOrder α] {a : List α} (k : Int) {i : Int} (h : i < 0 ∨ len a ≤ i) :
    lessAt a k i = Run.panic := by
  unfold lessAt
  rcases index_cases a k with hk | ⟨x, hk⟩
  · rw [hk]; rfl
  · rw [hk, index_out h]; rfl

theorem inBoundsAndLess_out [LinearOrder α] {a : List α} (k : Int) {i : Int}
    (h : i < 0 ∨ len a ≤ i) :
    inBoundsAndLess a k i = Run.ok false ∨ inBoundsAndLess a k i = Run.panic := by
  unfold inBoundsAndLess
  split
  · exact Or.inr (lessAt_out k h)
  · exact Or.inl rfl

/-- With an index outside `0 ≤ i < len(array)` the first iteration ends the
run: no entry can be compared with `array[i]`. -/
theorem HeapifyLoop_out [LinearOrder α] (fuel : Nat) (a : List α) {i : Int}
    (h : i < 0 ∨ len a ≤ i) :
    HeapifyLoop (fuel + 1) a i = Run.ok a ∨ HeapifyLoop (fuel + 1) a i = Run.panic := by
  simp only [HeapifyLoop]
  rcases inBoundsAndLess_out (subInt (mulInt (addInt i 1) 2) 1) h with h1 | h1
  · rw [h1]
    simp only [Run.ok_bind]
    rcases inBoundsAndLess_out (mulInt (addInt i 1) 2) h with h2 | h2
    · left
      simp [h2]
    · right
      simp [h2]
  · right
    rw [h1]; rfl

/-- A run of the loop that does not exhaust its budget is the same under any
larger budget. -/
theorem HeapifyLoop_mono [LinearOrder α] (n : Nat) (a : List α) (i : Int)
    (h : HeapifyLoop n a i ≠ Run.timeout) (m : Nat) (hm : n ≤ m) :
    HeapifyLoop m a i = HeapifyLoop n a i := by
  induction n generalizing a i m with
  | zero => exact absurd rfl h
  | succ n ih =>
    obtain ⟨m', rfl⟩ : ∃ m', m = m' + 1 := ⟨m - 1, by omega⟩
    simp only [HeapifyLoop] at h ⊢
    rcases h1 : inBoundsAndLess a (subInt (mulInt (addInt i 1) 2) 1) i with c1 | _ | _
    · rw [h1] at h
      simp only [Run.ok_bind] at h ⊢
      rcases h2 : inBoundsAndLess a (mulInt (addInt i 1) 2)
          (if c1 = true then subInt (mulInt (addInt i 1) 2) 1 else i) with c2 | _ | _
      · rw [h2] at h
        simp only [Run.ok_bind] at h ⊢
        generalize (if c2 = true then mulInt (addInt i 1) 2
          else if c1 = true then subInt (mulInt (addInt i 1) 2) 1 else i) = mi at h ⊢
        by_cases hmi : mi = i
        · simp only [if_pos hmi]
        · simp only [if_neg hmi] at h ⊢
          rcases h3 : swap a mi i with a' | _ | _
          · rw [h3] at h
            simp only [Run.ok_bind] at h ⊢
            exact ih _ _ h _ (by omega)
          · rfl
          · rfl
      · rfl
      · rfl
    · rfl
    · rfl

theorem Heapify_cases [LinearOrder α] (a : List α) (hlen : a.length < 4611686018427387904)
    (i : Int) :
    (∃ n : Nat, i = (n : Int) ∧ n < a.length ∧
        Heapify a i = Run.ok (siftDown (a.length + 1) a n)) ∨
      ((i < 0 ∨ len a ≤ i) ∧ (Heapify a i = Run.ok a ∨ Heapify a i = Run.panic)) := by
  by_cases h : i < 0 ∨ len a ≤ i
  · exact Or.inr ⟨h, HeapifyLoop_out _ a h⟩
  · left
    simp only [len] at h
    obtain ⟨n, rfl⟩ := Int.eq_ofNat_of_zero_le (by omega : 0 ≤ i)
    exact ⟨n, rfl, by omega, Heapify_eq a n hlen (by omega)⟩

theorem Heapify_ne_timeout [LinearOrder α] (a : List α) (hlen : a.length < 4611686018427387904)
    (i : Int) : Heapify a i ≠ Run.timeout := by
  rcases Heapify_cases a hlen i with ⟨n, _, _, h⟩ | ⟨_, h | h⟩ <;> rw [h] <;> simp

end AnyIndex

/-! ## Subtrees -/

section Subtree

variable {α : Type}

theorem reach_le {i j : Nat} (h : Reach i j) : i ≤ j := by
  induction h with
  | root => exact le_refl _
  | left _ ih => omega
  | right _ ih => omega

theorem reach_child1 {i k : Nat} (h : Reach i k) : Reach i (2 * k + 1) := by
  have e : 2 * k + 1 = (k + 1) * 2 - 1 := by omega
  rw [e]; exact Reach.left h

theorem reach_child2 {i k : Nat} (h : Reach i k) : Reach i (2 * k + 2) := by
  have e : 2 * k + 2 = (k + 1) * 2 := by omega
  rw [e]; exact Reach.right h

theorem reach_trans {i k j : Nat} (h1 : Reach i k) (h2 : Reach k j) : Reach i j := by
  induction h2 with
  | root => exact h1
  | left _ ih => exact Reach.left ih
  | right _ ih => exact Reach.right ih

theorem reach_parent {i j : Nat} (h : Reach i j) (hne : j ≠ i) : Reach i ((j - 1) / 2) := by
  cases h with
  | root => exact absurd rfl hne
  | @left k hk =>
    have e : ((k + 1) * 2 - 1 - 1) / 2 = k := by omega
    rw [e]; exact hk
  | @right k hk =>
    have e : ((k + 1) * 2 - 1) / 2 = k := by omega
    rw [e]; exact hk

theorem reach_cases {i j : Nat} (h : Reach i j) :
    j = i ∨ Reach (2 * i + 1) j ∨ Reach (2 * i + 2) j := by
  induction h with
  | root => exact Or.inl rfl
  | @left k _ ih =>
    rcases ih with h | h | h
    · subst h
      have e : (k + 1) * 2 - 1 = 2 * k + 1 := by omega
      rw [e]; exact Or.inr (Or.inl (Reach.root _))
    · exact Or.inr (Or.inl (Reach.left h))
    · exact Or.inr (Or.inr (Reach.left h))
  | @right k _ ih =>
    rcases ih with h | h | h
    · subst h
      have e : (k + 1) * 2 = 2 * k + 2 := by omega
      rw [e]; exact Or.inr (Or.inr (Reach.root _))
    · exact Or.inr (Or.inl (Reach.right h))
    · exact Or.inr (Or.inr (Reach.right h))

theorem inSubtreeAux_iff (n i j : Nat) (hn : j ≤ n) : inSubtreeAux n i j = true ↔ Reach i j := by
  induction n generalizing j with
  | zero =>
    have hj : j = 0 := by omega
    subst hj
    simp only [inSubtreeAux, decide_eq_true_eq]
    constructor
    · intro h; subst h; exact Reach.root _
    · intro h; have := reach_le h; omega
  | succ n ih =>
    simp only [inSubtreeAux]
    by_cases h1 : j = i
    · subst h1
      simp only [if_true, true_iff]
      exact Reach.root _
    · rw [if_neg h1]
      by_cases h2 : j ≤ i
      · rw [if_pos h2]
        constructor
        · intro h; cases h
        · intro h; have := reach_le h; omega
      · rw [if_neg h2, ih _ (by omega)]
        constructor
        · intro h
          rcases Nat.even_or_odd j with ⟨k, hk⟩ | ⟨k, hk⟩
          · have e : j = 2 * ((j - 1) / 2) + 2 := by omega
            rw [e]; exact reach_child2 h
          · have e : j = 2 * ((j - 1) / 2) + 1 := by omega
            rw [e]; exact reach_child1 h
        · intro h; exact reach_parent h h1

theorem inSubtree_iff (i j : Nat) : inSubtree i j = true ↔ Reach i j :=
  inSubtreeAux_iff j i j (le_refl _)

theorem heapAt_of_length_le [LinearOrder α] {a : List α} {j : Nat} (h : a.length ≤ j) :
    HeapAt a j :=
  ⟨leAt_of_length_le (by omega), leAt_of_length_le (by omega)⟩

theorem heapAt_iff [LinearOrder α] (a : List α) (j : Nat) (hj : j < a.length) :
    ((∀ h : (j + 1) * 2 - 1 < a.length, a[j] ≤ a[(j + 1) * 2 - 1]) ∧
      (∀ h : (j + 1) * 2 < a.length, a[j] ≤ a[(j + 1) * 2])) ↔ HeapAt a j := by
  have e1 : (j + 1) * 2 - 1 = 2 * j + 1 := by omega
  have e2 : (j + 1) * 2 = 2 * j + 2 := by omega
  constructor
  · intro h
    constructor
    · intro x y hx hy
      obtain ⟨_, rfl⟩ := List.getElem?_eq_some.1 hx
      obtain ⟨hc, rfl⟩ := List.getElem?_eq_some.1 hy
      have := h.1 (by simp only [e1]; exact hc)
      simpa only [e1] using this
    · intro x y hx hy
      obtain ⟨_, rfl⟩ := List.getElem?_eq_some.1 hx
      obtain ⟨hc, rfl⟩ := List.getElem?_eq_some.1 hy
      have := h.2 (by simp only [e2]; exact hc)
      simpa only [e2] using this
  · intro h
    constructor
    · intro hc
      have := h.1 _ _ (List.getElem?_eq_getElem hj)
        (List.getElem?_eq_getElem (by omega : 2 * j + 1 < a.length))
      simpa only [e1] using this
    · intro hc
      have := h.2 _ _ (List.getElem?_eq_getElem hj)
        (List.getElem?_eq_getElem (by omega : 2 * j + 2 < a.length))
      simpa only [e2] using this

theorem isMinHeapExceptAt_iff [LinearOrder α] (a : List α) (i : Nat) :
    IsMinHeapExceptAt a i ↔ ∀ j, j ≠ i → HeapAt a j := by
  constructor
  · intro h j hj
    by_cases hl : j < a.length
    · exact (heapAt_iff a j hl).1 (h ⟨j, hl⟩ hj)
    · exact heapAt_of_length_le (by omega)
  · intro h j hj
    exact (heapAt_iff a j.val j.isLt).2 (h j.val hj)

theorem isMinHeapBelow_iff [LinearOrder α] (a : List α) (i : Nat) :
    IsMinHeapBelow a i ↔ ∀ j, Reach i j → HeapAt a j := by
  constructor
  · intro h j hj
    by_cases hl : j < a.length
    · exact (heapAt_iff a j hl).1 (h ⟨j, hl⟩ ((inSubtree_iff i j).2 hj))
    · exact heapAt_of_length_le (by omega)
  · intro h j hj
    exact (heapAt_iff a j.val j.isLt).2 (h j.val ((inSubtree_iff i j.val).1 hj))

end Subtree

/-! ## Sift-down inside a set of positions closed under children -/

section SiftOn

variable {α : Type}

/-- One swap of the sift-down loop, for the positions of a set `D` that is
closed under taking children. -/
theorem siftOn_step [LinearOrder α] {D : Nat → Prop}
    (hD : ∀ j, D j → D (2 * j + 1) ∧ D (2 * j + 2)) {a : List α} {i : Nat} (hi : D i)
    (h1 : ∀ j, D j → j ≠ i → HeapAt a j)
    (h2 : ∀ p, D p → (i = 2 * p + 1 ∨ i = 2 * p + 2) →
      LeAt a p (2 * i + 1) ∧ LeAt a p (2 * i + 2))
    (hne : minIndex a i ≠ i) :
    (∀ j, D j → j ≠ minIndex a i → HeapAt (swapAt a (minIndex a i) i) j) ∧
      (∀ p, D p → (minIndex a i = 2 * p + 1 ∨ minIndex a i = 2 * p + 2) →
        LeAt (swapAt a (minIndex a i) i) p (2 * minIndex a i + 1) ∧
          LeAt (swapAt a (minIndex a i) i) p (2 * minIndex a i + 2)) := by
  rcases minIndex_cases a i with h | ⟨hm, hml, hil⟩
  · exact absurd h hne
  obtain ⟨s1, s2, s3⟩ := minIndex_spec a i
  have get := swapAt_get hml hil
  have hDm : D (minIndex a i) := by
    rcases hm with hm | hm
    · rw [hm]; exact (hD i hi).1
    · rw [hm]; exact (hD i hi).2
  constructor
  · intro j hDj hjm
    have key : ∀ c, (c = 2 * j + 1 ∨ c = 2 * j + 2) →
        LeAt (swapAt a (minIndex a i) i) j c := by
      intro c hc x y hx hy
      rw [get] at hx hy
      by_cases hji : j = i
      · subst hji
        rw [if_pos rfl] at hx
        have hci : c ≠ j := by omega
        rw [if_neg hci] at hy
        by_cases hcm : c = minIndex a j
        · rw [if_pos hcm] at hy
          exact s1 x y hx hy
        · rw [if_neg hcm] at hy
          rcases hc with hc | hc
          · subst hc; exact s2 x y hx hy
          · subst hc; exact s3 x y hx hy
      · rw [if_neg hji, if_neg hjm] at hx
        by_cases hci : c = i
        · rw [if_pos hci] at hy
          have hp := h2 j hDj (by omega)
          rcases hm with hm | hm
          · rw [hm] at hy; exact hp.1 x y hx hy
          · rw [hm] at hy; exact hp.2 x y hx hy
        · have hcm : c ≠ minIndex a i := by omega
          rw [if_neg hci, if_neg hcm] at hy
          have hj := h1 j hDj hji
          rcases hc with hc | hc
          · subst hc; exact hj.1 x y hx hy
          · subst hc; exact hj.2 x y hx hy
    exact ⟨key _ (Or.inl rfl), key _ (Or.inr rfl)⟩
  · intro p _ hp
    have hpi : p = i := by omega
    subst hpi
    have hmh := h1 (minIndex a p) hDm hne
    have key : ∀ c, (c = 2 * minIndex a p + 1 ∨ c = 2 * minIndex a p + 2) →
        LeAt (swapAt a (minIndex a p) p) p c := by
      intro c hc x y hx hy
      rw [get] at hx hy
      rw [if_pos rfl] at hx
      have h1' : c ≠ p := by omega
      have h2' : c ≠ minIndex a p := by omega
      rw [if_neg h1', if_neg h2'] at hy
      rcases hc with hc | hc
      · subst hc; exact hmh.1 x y hx hy
      · subst hc; exact hmh.2 x y hx hy
    exact ⟨key _ (Or.inl rfl), key _ (Or.inr rfl)⟩

/-- Sift-down at `i` restores the order at every position of `D`. -/
theorem siftDownOn_heap [LinearOrder α] {D : Nat → Prop}
    (hD : ∀ j, D j → D (2 * j + 1) ∧ D (2 * j + 2)) (fuel : Nat) (a : List α) (i : Nat)
    (hi : D i) (hf : a.length - i < fuel)
    (h1 : ∀ j, D j → j ≠ i → HeapAt a j)
    (h2 : ∀ p, D p → (i = 2 * p + 1 ∨ i = 2 * p + 2) →
      LeAt a p (2 * i + 1) ∧ LeAt a p (2 * i + 2)) :
    ∀ j, D j → HeapAt (siftDown fuel a i) j := by
  induction fuel generalizing a i with
  | zero => omega
  | succ n ih =>
    simp only [siftDown]
    by_cases h : minIndex a i = i
    · rw [if_pos h]
      intro j hj
      by_cases hji : j = i
      · subst hji
        obtain ⟨_, s2, s3⟩ := minIndex_spec a j
        rw [h] at s2 s3
        exact ⟨s2, s3⟩
      · exact h1 j hj hji
    · rw [if_neg h]
      rcases minIndex_cases a i with h' | ⟨hm, hml, hil⟩
      · exact absurd h' h
      have hDm : D (minIndex a i) := by
        rcases hm with hm | hm
        · rw [hm]; exact (hD i hi).1
        · rw [hm]; exact (hD i hi).2
      obtain ⟨k1, k2⟩ := siftOn_step hD hi h1 h2 h
      exact ih _ _ hDm (by simp; omega) k1 k2

theorem reach_minIndex [LinearOrder α] (a : List α) (i : Nat) : Reach i (minIndex a i) := by
  rcases minIndex_cases a i with h | ⟨h | h, _, _⟩
  · rw [h]; exact Reach.root _
  · rw [h]; exact reach_child1 (Reach.root _)
  · rw [h]; exact reach_child2 (Reach.root _)

/-- Sift-down at `i` touches no position outside the subtree rooted at `i`. -/
theorem siftDown_frame [LinearOrder α] (fuel : Nat) (a : List α) (i j : Nat)
    (h : ¬ Reach i j) : (siftDown fuel a i)[j]? = a[j]? := by
  induction fuel generalizing a i with
  | zero => rfl
  | succ n ih =>
    simp only [siftDown]
    by_cases hm : minIndex a i = i
    · rw [if_pos hm]
    · rw [if_neg hm]
      rcases minIndex_cases a i with h' | ⟨_, hml, hil⟩
      · exact absurd h' hm
      have hr := reach_minIndex a i
      rw [ih _ _ (fun hj => h (reach_trans hr hj)), swapAt_get hml hil]
      have h1 : j ≠ i := fun e => h (e ▸ Reach.root _)
      have h2 : j ≠ minIndex a i := fun e => h (e ▸ hr)
      rw [if_neg h1, if_neg h2]

/-- Every entry found in the subtree after sift-down was in the subtree
before. -/
theorem siftDown_subtree_sub [LinearOrder α] (fuel : Nat) (a : List α) (i j : Nat) (y : α)
    (hj : Reach i j) (hy : (siftDown fuel a i)[j]? = some y) :
    ∃ j', Reach i j' ∧ a[j']? = some y := by
  induction fuel generalizing a i j with
  | zero => exact ⟨j, hj, hy⟩
  | succ n ih =>
    simp only [siftDown] at hy
    by_cases hm : minIndex a i = i
    · rw [if_pos hm] at hy
      exact ⟨j, hj, hy⟩
    · rw [if_neg hm] at hy
      rcases minIndex_cases a i with h' | ⟨hmc, hml, hil⟩
      · exact absurd h' hm
      have hr := reach_minIndex a i
      have get := swapAt_get hml hil
      have back : ∀ q, Reach i q → (swapAt a (minIndex a i) i)[q]? = some y →
          ∃ j', Reach i j' ∧ a[j']? = some y := by
        intro q hq hqy
        rw [get] at hqy
        by_cases h1 : q = i
        · rw [if_pos h1] at hqy
          exact ⟨_, hr, hqy⟩
        · rw [if_neg h1] at hqy
          by_cases h2 : q = minIndex a i
          · rw [if_pos h2] at hqy
            exact ⟨i, Reach.root _, hqy⟩
          · rw [if_neg h2] at hqy
            exact ⟨q, hq, hqy⟩
      by_cases hmj : Reach (minIndex a i) j
      · obtain ⟨q, hq, hqy⟩ := ih _ _ _ hmj hy
        exact back q (reach_trans hr hq) hqy
      · rw [siftDown_frame _ _ _ _ hmj] at hy
        exact back j hj hy

/-- Every entry of the subtree is still in the subtree after sift-down. -/
theorem siftDown_subtree_sup [LinearOrder α] (fuel : Nat) (a : List α) (i j : Nat) (y : α)
    (hj : Reach i j) (hy : a[j]? = some y) :
    ∃ j', Reach i j' ∧ (siftDown fuel a i)[j']? = some y := by
  induction fuel generalizing a i j with
  | zero => exact ⟨j, hj, hy⟩
  | succ n ih =>
    simp only [siftDown]
    by_cases hm : minIndex a i = i
    · rw [if_pos hm]
      exact ⟨j, hj, hy⟩
    · rw [if_neg hm]
      rcases minIndex_cases a i with h' | ⟨hmc, hml, hil⟩
      · exact absurd h' hm
      have hr := reach_minIndex a i
      have get := swapAt_get hml hil
      have fwd : ∃ q, Reach i q ∧ (swapAt a (minIndex a i) i)[q]? = some y := by
        by_cases h1 : j = i
        · refine ⟨minIndex a i, hr, ?_⟩
          rw [get, if_neg hm, if_pos rfl, ← h1]; exact hy
        · by_cases h2 : j = minIndex a i
          · refine ⟨i, Reach.root _, ?_⟩
            rw [get, if_pos rfl, ← h2]; exact hy
          · refine ⟨j, hj, ?_⟩
            rw [get, if_neg h1, if_neg h2]; exact hy
      obtain ⟨q, hq, hqy⟩ := fwd
      by_cases hmq : Reach (minIndex a i) q
      · obtain ⟨j', hj', hy'⟩ := ih _ _ _ hmq hqy
        exact ⟨j', reach_trans hr hj', hy'⟩
      · exact ⟨q, hq, by rw [siftDown_frame _ _ _ _ hmq]; exact hqy⟩

/-- In a subtree that satisfies the min-heap condition the root is `≤` every
entry. -/
theorem subtree_root_le [LinearOrder α] {a : List α} {i : Nat}
    (h : ∀ j, Reach i j → HeapAt a j) {j : Nat} (hj : Reach i j) : LeAt a i j := by
  induction hj with
  | root => exact leAt_refl _ _
  | @left k hk ih =>
    intro x y hx hy
    have hc : (k + 1) * 2 - 1 < a.length := (List.getElem?_eq_some.1 hy).1
    have e : (k + 1) * 2 - 1 = 2 * k + 1 := by omega
    have hkc : LeAt a k ((k + 1) * 2 - 1) := by rw [e]; exact (h k hk).1
    exact leAt_trans (by omega) ih hkc x y hx hy
  | @right k hk ih =>
    intro x y hx hy
    have hc : (k + 1) * 2 < a.length := (List.getElem?_eq_some.1 hy).1
    have e : (k + 1) * 2 = 2 * k + 2 := by omega
    have hkc : LeAt a k ((k + 1) * 2) := by rw [e]; exact (h k hk).2
    exact leAt_trans (by omega) ih hkc x y hx hy

theorem minIndex_of_heapAt [LinearOrder α] {a : List α} {i : Nat} (h : HeapAt a i) :
    minIndex a i = i := by
  have f1 : ¬ ltAt a (2 * i + 1) i = true := by
    intro c
    obtain ⟨x, y, hx, hy, hlt⟩ := ltAt_true c
    exact absurd (h.1 y x hy hx) (not_le_of_lt hlt)
  have f2 : ¬ ltAt a (2 * i + 2) i = true := by
    intro c
    obtain ⟨x, y, hx, hy, hlt⟩ := ltAt_true c
    exact absurd (h.2 y x hy hx) (not_le_of_lt hlt)
  simp [minIndex, f1, f2]

theorem siftDown_of_heapAt [LinearOrder α] (fuel : Nat) {a : List α} {i : Nat}
    (h : HeapAt a i) : siftDown fuel a i = a := by
  cases fuel with
  | zero => rfl
  | succ n => simp only [siftDown]; rw [if_pos (minIndex_of_heapAt h)]

theorem buildLoop_of_heap [LinearOrder α] (n : Nat) {a : List α} (h : ∀ j, HeapAt a j) :
    buildLoop n a = a := by
  induction n with
  | zero => rfl
  | succ n ih => simp only [buildLoop]; rw [siftDown_of_heapAt _ (h n)]; exact ih

end SiftOn

/-! ## Properties of sift-down as a unit -/

/-- C11 (counterexample). In `[2, 5, 3, 1]` the min-heap property holds
everywhere except between index 1 and its child, and the subtrees below the
children of index 1 are heaps, yet `Heapify(array, 1)` leaves `[2, 1, 3, 5]`,
which is not a heap: the root `2` is above the `1` that came up. -/
theorem Heapify_whole_heap_counterexample :
    (1 : Nat) < ([2, 5, 3, 1] : List Nat).length ∧
      IsMinHeapExceptAt ([2, 5, 3, 1] : List Nat) 1 ∧
      IsMinHeapBelow ([2, 5, 3, 1] : List Nat) ((1 + 1) * 2 - 1) ∧
      IsMinHeapBelow ([2, 5, 3, 1] : List Nat) ((1 + 1) * 2) ∧
      Heapify ([2, 5, 3, 1] : List Nat) 1 = Run.ok [2, 1, 3, 5] ∧
      ¬ IsMinHeap ([2, 1, 3, 5] : List Nat) := by
  decide

/-- C11 (amended). If the min-heap property holds everywhere except possibly
between a valid index `i` and its children and, when `i` is not the root, the
parent of `i` (index `(i+1)/2 - 1`) is `≤` the children of `i`, then
`Heapify(array, i)` returns and the entire sequence satisfies the min-heap
property. -/
theorem Heapify_whole_heap {α : Type} [LinearOrder α] (array : List α) (i : Nat)
    (hlen : array.length < 2 ^ 62) (hi : i < array.length)
    (hex : IsMinHeapExceptAt array i)
    (hpar : i ≠ 0 → LeAt array ((i + 1) / 2 - 1) ((i + 1) * 2 - 1) ∧
      LeAt array ((i + 1) / 2 - 1) ((i + 1) * 2)) :
    ∃ a', Heapify array (i : Int) = Run.ok a' ∧ IsMinHeap a' := by
  have hlen' : array.length < 4611686018427387904 := by omega
  refine ⟨_, Heapify_eq array i hlen' (by omega), (isMinHeap_iff _).2 ?_⟩
  intro j
  refine siftDown_heap _ array 0 i (Nat.zero_le _) (by omega) ⟨?_, ?_⟩ j (Nat.zero_le _)
  · intro j _ hj
    exact (isMinHeapExceptAt_iff array i).1 hex j hj
  · intro p _ hp
    have hi0 : i ≠ 0 := by omega
    have e0 : (i + 1) / 2 - 1 = p := by omega
    have e1 : (i + 1) * 2 - 1 = 2 * i + 1 := by omega
    have e2 : (i + 1) * 2 = 2 * i + 2 := by omega
    have := hpar hi0
    rw [e0, e1, e2] at this
    exact this

theorem Heapify_whole_heap_witness :
    ([1, 5, 3, 2] : List Nat).length < 2 ^ 62 ∧ 1 < ([1, 5, 3, 2] : List Nat).length ∧
      IsMinHeapExceptAt ([1, 5, 3, 2] : List Nat) 1 ∧
      ((1 : Nat) ≠ 0 → LeAt ([1, 5, 3, 2] : List Nat) ((1 + 1) / 2 - 1) ((1 + 1) * 2 - 1) ∧
        LeAt ([1, 5, 3, 2] : List Nat) ((1 + 1) / 2 - 1) ((1 + 1) * 2)) ∧
      ∃ a', Heapify ([1, 5, 3, 2] : List Nat) ((1 : Nat) : Int) = Run.ok a' ∧ IsMinHeap a' :=
  ⟨by decide, by decide, by decide, by decide,
    Heapify_whole_heap _ 1 (by decide) (by decide) (by decide) (by decide)⟩

section Rec

variable {α : Type}

theorem HeapifyRecCall_eq [LinearOrder α] (n : Nat) (a : List α) (i : Int) :
    HeapifyRecCall n a i = HeapifyLoop n a i := by
  induction n generalizing a i with
  | zero => rfl
  | succ n ih =>
    simp only [HeapifyRecCall, HeapifyLoop]
    congr 1
    funext c1
    congr 1
    funext c2
    by_cases h : (if c2 = true then mulInt (addInt i 1) 2
        else if c1 = true then subInt (mulInt (addInt i 1) 2) 1 else i) = i
    · simp only [h, ne_eq, not_true_eq_false, if_false, if_true]
    · simp only [h, ne_eq, not_false_eq_true, if_false, if_true]
      congr 1
      funext a'
      exact ih _ _

end Rec

/-- C12. The recursive `HeapifyRec` and the iterative `Heapify` have the same
outcome on every sequence and every index (the same final sequence, or both
panic), and for an index whose child indices do not overflow both return. -/
theorem HeapifyRec_eq_Heapify {α : Type} [LinearOrder α] (array : List α) (i : Int) :
    HeapifyRec array i = Heapify array i ∧
      (array.length < 2 ^ 62 → 0 ≤ i → i + 1 < 2 ^ 62 →
        ∃ a', Heapify array i = Run.ok a' ∧ HeapifyRec array i = Run.ok a') := by
  have e : HeapifyRec array i = Heapify array i := HeapifyRecCall_eq _ _ _
  refine ⟨e, fun hlen h0 h1 => ?_⟩
  obtain ⟨n, rfl⟩ := Int.eq_ofNat_of_zero_le h0
  have h := Heapify_eq array n (by omega) (by omega)
  exact ⟨_, h, by rw [e, h]⟩

theorem HeapifyRec_eq_Heapify_witness :
    (([5, 3, 8, 1, 9, 2] : List Nat).length < 2 ^ 62 ∧ (0 : Int) ≤ 0 ∧ (0 : Int) + 1 < 2 ^ 62) ∧
      HeapifyRec ([5, 3, 8, 1, 9, 2] : List Nat) 0 = Heapify ([5, 3, 8, 1, 9, 2] : List Nat) 0 ∧
      ∃ a', Heapify ([5, 3, 8, 1, 9, 2] : List Nat) 0 = Run.ok a' ∧
        HeapifyRec ([5, 3, 8, 1, 9, 2] : List Nat) 0 = Run.ok a' :=
  ⟨by decide, (HeapifyRec_eq_Heapify _ 0).1,
    (HeapifyRec_eq_Heapify _ 0).2 (by decide) (by decide) (by decide)⟩

/-- C13. `BuildHeap` applied to the result of `BuildHeap` leaves it as it is;
more generally, on a sequence with the min-heap property `BuildHeap` and
`Heapify` at any index perform no swap: they return the sequence unchanged
(for an index at which `Heapify` panics, it panics before any write). -/
theorem BuildHeap_idempotent {α : Type} [LinearOrder α] (S : List α)
    (hlen : S.length < 2 ^ 62) :
    (∃ S', BuildHeap S = Run.ok S' ∧ BuildHeap S' = Run.ok S') ∧
      (IsMinHeap S → BuildHeap S = Run.ok S ∧
        (∀ i : Nat, i + 1 < 2 ^ 62 → Heapify S (i : Int) = Run.ok S) ∧
        (∀ i : Int, Heapify S i = Run.ok S ∨ Heapify S i = Run.panic)) := by
  have hlen' : S.length < 4611686018427387904 := by omega
  have fix : ∀ a : List α, a.length < 4611686018427387904 → (∀ j, HeapAt a j) →
      BuildHeap a = Run.ok a := by
    intro a ha hh
    rw [BuildHeap_eq a ha]
    split
    · rfl
    · rw [buildLoop_of_heap _ hh]
  constructor
  · refine ⟨_, BuildHeap_eq S hlen', fix _ ?_ (build_heap S)⟩
    split
    · exact hlen'
    · simpa using hlen'
  · intro hS
    have hh := (isMinHeap_iff S).1 hS
    refine ⟨fix S hlen' hh, ?_, ?_⟩
    · intro i hi
      rw [Heapify_eq S i hlen' (by omega), siftDown_of_heapAt _ (hh i)]
    · intro i
      rcases Heapify_cases S hlen' i with ⟨n, _, _, h⟩ | ⟨_, h⟩
      · left; rw [h, siftDown_of_heapAt _ (hh n)]
      · exact h

theorem BuildHeap_idempotent_witness :
    (([1, 3, 2, 5, 9, 8] : List Nat).length < 2 ^ 62 ∧ IsMinHeap ([1, 3, 2, 5, 9, 8] : List Nat)) ∧
      (∃ S', BuildHeap ([1, 3, 2, 5, 9, 8] : List Nat) = Run.ok S' ∧ BuildHeap S' = Run.ok S') ∧
      BuildHeap ([1, 3, 2, 5, 9, 8] : List Nat) = Run.ok [1, 3, 2, 5, 9, 8] ∧
      (∀ i : Nat, i + 1 < 2 ^ 62 →
        Heapify ([1, 3, 2, 5, 9, 8] : List Nat) (i : Int) = Run.ok [1, 3, 2, 5, 9, 8]) ∧
      (∀ i : Int, Heapify ([1, 3, 2, 5, 9, 8] : List Nat) i = Run.ok [1, 3, 2, 5, 9, 8] ∨
        Heapify ([1, 3, 2, 5, 9, 8] : List Nat) i = Run.panic) :=
  ⟨by decide, (BuildHeap_idempotent _ (by decide)).1,
    (BuildHeap_idempotent _ (by decide)).2 (by decide)⟩

/-- C14. On a non-empty heap `Replace(S, x)` returns the same previous minimum
`S[0]` as `ExtractMin(S)`, and its sequence is a heap holding the same
elements as the heap `Insert` builds from the sequence of `ExtractMin(S)` and
`x`. -/
theorem Replace_eq_ExtractMin_Insert {α : Type} [LinearOrder α] [Inhabited α] (S : List α)
    (x : α) (hlen : S.length < 2 ^ 62) (hne : S ≠ []) (hS : IsMinHeap S) :
    ∃ R E I m, Replace S x = Run.ok (R, m, none) ∧ ExtractMin S = Run.ok (E, m, none) ∧
      S[0]? = some m ∧ Insert E x = Run.ok I ∧ IsMinHeap R ∧ IsMinHeap I ∧ R.Perm I := by
  have hlen' : S.length < 4611686018427387904 := by omega
  have hh := (isMinHeap_iff S).1 hS
  obtain ⟨E, m, hE, hm, hEh, hEp, hEl⟩ := ExtractMin_spec S hlen' hne hh
  have hI := Insert_eq E x (by omega)
  have hR := Replace_eq S m x hlen' hm
  refine ⟨_, E, _, m, hR, hE, hm, hI, ?_, ?_, ?_⟩
  · refine (isMinHeap_iff _).2 (fun j => ?_)
    exact siftDown_heap _ _ 0 0 (le_refl _) (by simp)
      (siftInv_root (set_zero_get S x) hh) j (Nat.zero_le _)
  · exact (isMinHeap_iff _).2 (siftUp_heap _ _ _ (by omega) (upInv_append E x hEh))
  · have p1 : (m :: siftDown (S.length + 1) (S.set 0 x) 0).Perm (x :: S) :=
      ((siftDown_perm _ _ _).cons m).trans (set_perm hm x)
    have p2 : (m :: siftUp (E.length + 2) (E ++ [x]) E.length).Perm (x :: S) := by
      have q1 : (siftUp (E.length + 2) (E ++ [x]) E.length).Perm (x :: E) :=
        (siftUp_perm _ _ _).trans (List.perm_append_singleton _ _)
      exact ((q1.cons m).trans (List.Perm.swap x m E)).trans (hEp.cons x)
    exact (p1.trans p2.symm).cons_inv

theorem Replace_eq_ExtractMin_Insert_witness :
    ([1, 3, 2, 5, 9, 8] : List Nat).length < 2 ^ 62 ∧ ([1, 3, 2, 5, 9, 8] : List Nat) ≠ [] ∧
      IsMinHeap ([1, 3, 2, 5, 9, 8] : List Nat) ∧
      ∃ R E I m, Replace ([1, 3, 2, 5, 9, 8] : List Nat) 4 = Run.ok (R, m, none) ∧
        ExtractMin ([1, 3, 2, 5, 9, 8] : List Nat) = Run.ok (E, m, none) ∧
        ([1, 3, 2, 5, 9, 8] : List Nat)[0]? = some m ∧ Insert E 4 = Run.ok I ∧
        IsMinHeap R ∧ IsMinHeap I ∧ R.Perm I :=
  ⟨by decide, by decide, by decide,
    Replace_eq_ExtractMin_Insert _ 4 (by decide) (by decide) (by decide)⟩

/-- C15. The concrete scenario of the specification: `BuildHeap` on
`[5, 3, 8, 1, 9, 2]` puts `1` at index 0; `Insert` of `0` puts `0` at index 0;
`ExtractMin` returns `0` with no error and leaves `1` at index 0; `Replace`
with `100` returns `1` and leaves `2` at index 0. -/
theorem concrete_scenario :
    ∃ h1 h2 h3 h4 : List Nat,
      BuildHeap ([5, 3, 8, 1, 9, 2] : List Nat) = Run.ok h1 ∧ h1[0]? = some 1 ∧
      Insert h1 0 = Run.ok h2 ∧ h2[0]? = some 0 ∧
      ExtractMin h2 = Run.ok (h3, 0, none) ∧ h3[0]? = some 1 ∧
      Replace h3 100 = Run.ok (h4, 1, none) ∧ h4[0]? = some 2 :=
  ⟨[1, 3, 2, 5, 9, 8], [0, 3, 1, 5, 9, 8, 2], [1, 3, 2, 5, 9, 8], [2, 3, 8, 5, 9, 100],
    by decide⟩

/-! ## Safety and termination -/

section Totality

variable {α : Type}

/-- A run of the sift-up loop that does not exhaust its budget is the same
under any larger budget. -/
theorem InsertLoop_mono [LinearOrder α] (n : Nat) (a : List α) (j p : Int)
    (h : InsertLoop n a j p ≠ Run.timeout) (m : Nat) (hm : n ≤ m) :
    InsertLoop m a j p = InsertLoop n a j p := by
  induction n generalizing a j p m with
  | zero => exact absurd rfl h
  | succ n ih =>
    obtain ⟨m', rfl⟩ : ∃ m', m = m' + 1 := ⟨m - 1, by omega⟩
    simp only [InsertLoop] at h ⊢
    by_cases hp : p ≥ 0
    · simp only [if_pos hp] at h ⊢
      rcases h1 : lessAt a j p with c | _ | _
      · rw [h1] at h
        simp only [Run.ok_bind] at h ⊢
        by_cases hc : c = true
        · simp only [if_pos hc] at h ⊢
          rcases h2 : swap a p j with a' | _ | _
          · rw [h2] at h
            simp only [Run.ok_bind] at h ⊢
            exact ih _ _ _ h _ (by omega)
          · rfl
          · rfl
        · simp only [if_neg hc]
      · rfl
      · rfl
    · simp only [if_neg hp]

theorem ExtractMin_singleton [LinearOrder α] [Inhabited α] (x : α) :
    ExtractMin [x] = Run.ok ([], x, none) := by
  rw [ExtractMin_eq [x] x x (by simp) rfl rfl]
  rfl

theorem Heapify_nil [LinearOrder α] : Heapify ([] : List α) 0 = Run.ok [] := by
  have := Heapify_zero_eq ([] : List α) (by simp)
  rw [this]
  rfl

theorem ExtractMin_ne_timeout [LinearOrder α] [Inhabited α] (a : List α)
    (hlen : a.length < 4611686018427387904) : ExtractMin a ≠ Run.timeout := by
  by_cases h : a = []
  · subst h
    intro c
    cases c
  · obtain ⟨S', m, hrun, _, _⟩ := ExtractMin_run a hlen h
    rw [hrun]; simp

theorem Replace_ne_timeout [LinearOrder α] [Inhabited α] (a : List α) (x : α)
    (hlen : a.length < 4611686018427387904) : Replace a x ≠ Run.timeout := by
  by_cases h : a = []
  · subst h
    intro c
    cases c
  · have hm := List.getElem?_eq_getElem (List.length_pos.2 h)
    rw [Replace_eq a _ x hlen hm]; simp

end Totality

/-- C16 (counterexample). `Heapify` on the one-element sequence `[1]` with the
non-negative index `2^62 - 1` panics: `(i+1)*2` wraps around to `-2^63`, which
passes the test `r < len(array)`, and `array[r]` is out of range. -/
theorem Heapify_large_index_panics :
    (0 : Int) ≤ 4611686018427387903 ∧
      Heapify ([1] : List Nat) 4611686018427387903 = Run.panic := by
  decide

/-- C16 (amended). `BuildHeap`, `Insert` and sift-down never fail on any
sequence, lengths 0 and 1 included, and for `Heapify` any index `i ≥ 0` with
`i < 2^62 - 1` (every valid index is one): every array access they perform is
in bounds. This covers the `Heapify(array, 0)` call of `ExtractMin` on the
empty sequence left by a one-element heap and the parent index of the sift-up
loop of `Insert`. -/
theorem operations_never_panic {α : Type} [LinearOrder α] [Inhabited α] (array : List α)
    (x : α) (hlen : array.length < 2 ^ 62) :
    (∃ a', BuildHeap array = Run.ok a') ∧ (∃ a', Insert array x = Run.ok a') ∧
      (∀ i : Nat, i + 1 < 2 ^ 62 → ∃ a', Heapify array (i : Int) = Run.ok a') ∧
      Heapify ([] : List α) 0 = Run.ok [] ∧ ExtractMin [x] = Run.ok ([], x, none) := by
  have hlen' : array.length < 4611686018427387904 := by omega
  exact ⟨⟨_, BuildHeap_eq array hlen'⟩, ⟨_, Insert_eq array x hlen'⟩,
    fun i hi => ⟨_, Heapify_eq array i hlen' (by omega)⟩, Heapify_nil, ExtractMin_singleton x⟩

theorem operations_never_panic_witness :
    ([5, 3, 8, 1, 9, 2] : List Nat).length < 2 ^ 62 ∧
      (∃ a', BuildHeap ([5, 3, 8, 1, 9, 2] : List Nat) = Run.ok a') ∧
      (∃ a', Insert ([5, 3, 8, 1, 9, 2] : List Nat) 7 = Run.ok a') ∧
      (∀ i : Nat, i + 1 < 2 ^ 62 →
        ∃ a', Heapify ([5, 3, 8, 1, 9, 2] : List Nat) (i : Int) = Run.ok a') ∧
      Heapify ([] : List Nat) 0 = Run.ok [] ∧ ExtractMin [7] = Run.ok ([], 7, none) :=
  ⟨by decide, operations_never_panic _ 7 (by decide)⟩

/-- C17. Every operation terminates. For every sequence and every index the
loop of `Heapify` ends within `len(array) + 1` iterations and a larger budget
does not change the run (a swap moves the index to a strictly larger position
below the length); the sift-up loop of `Insert` ends within the length of the
extended sequence plus one; `BuildHeap`, `ExtractMin` and `Replace` end. -/
theorem operations_terminate {α : Type} [LinearOrder α] [Inhabited α] (array : List α)
    (x : α) (hlen : array.length < 2 ^ 62) :
    (∀ i : Int, Heapify array i ≠ Run.timeout ∧
        ∀ fuel, array.length + 1 ≤ fuel → HeapifyLoop fuel array i = Heapify array i) ∧
      (∀ i : Nat, minIndex array i ≠ i →
        i < minIndex array i ∧ minIndex array i < array.length) ∧
      (Insert array x ≠ Run.timeout ∧
        ∀ fuel, (array ++ [x]).length + 1 ≤ fuel →
          InsertLoop fuel (array ++ [x]) (subInt (len (array ++ [x])) 1)
            (subInt (divInt (len (array ++ [x])) 2) 1) = Insert array x) ∧
      BuildHeap array ≠ Run.timeout ∧ ExtractMin array ≠ Run.timeout ∧
      Replace array x ≠ Run.timeout := by
  have hlen' : array.length < 4611686018427387904 := by omega
  have hI : Insert array x ≠ Run.timeout := by rw [Insert_eq array x hlen']; simp
  refine ⟨fun i => ⟨Heapify_ne_timeout array hlen' i, fun fuel hf => ?_⟩, ?_, ⟨hI, ?_⟩, ?_,
    ExtractMin_ne_timeout array hlen', Replace_ne_timeout array x hlen'⟩
  · exact HeapifyLoop_mono _ array i (Heapify_ne_timeout array hlen' i) fuel hf
  · intro i hne
    rcases minIndex_cases array i with h | ⟨h, h1, _⟩
    · exact absurd h hne
    · exact ⟨by omega, h1⟩
  · intro fuel hf
    exact InsertLoop_mono _ _ _ _ hI fuel hf
  · rw [BuildHeap_eq array hlen']; simp

theorem operations_terminate_witness :
    ([5, 3, 8, 1, 9, 2] : List Nat).length < 2 ^ 62 ∧
      (∀ i : Int, Heapify ([5, 3, 8, 1, 9, 2] : List Nat) i ≠ Run.timeout ∧
        ∀ fuel, ([5, 3, 8, 1, 9, 2] : List Nat).length + 1 ≤ fuel →
          HeapifyLoop fuel ([5, 3, 8, 1, 9, 2] : List Nat) i
            = Heapify ([5, 3, 8, 1, 9, 2] : List Nat) i) ∧
      (∀ i : Nat, minIndex ([5, 3, 8, 1, 9, 2] : List Nat) i ≠ i →
        i < minIndex ([5, 3, 8, 1, 9, 2] : List Nat) i ∧
          minIndex ([5, 3, 8, 1, 9, 2] : List Nat) i < ([5, 3, 8, 1, 9, 2] : List Nat).length) ∧
      (Insert ([5, 3, 8, 1, 9, 2] : List Nat) 0 ≠ Run.timeout ∧
        ∀ fuel, (([5, 3, 8, 1, 9, 2] : List Nat) ++ [0]).length + 1 ≤ fuel →
          InsertLoop fuel (([5, 3, 8, 1, 9, 2] : List Nat) ++ [0])
            (subInt (len (([5, 3, 8, 1, 9, 2] : List Nat) ++ [0])) 1)
            (subInt (divInt (len (([5, 3, 8, 1, 9, 2] : List Nat) ++ [0])) 2) 1)
            = Insert ([5, 3, 8, 1, 9, 2] : List Nat) 0) ∧
      BuildHeap ([5, 3, 8, 1, 9, 2] : List Nat) ≠ Run.timeout ∧
      ExtractMin ([5, 3, 8, 1, 9, 2] : List Nat) ≠ Run.timeout ∧
      Replace ([5, 3, 8, 1, 9, 2] : List Nat) 0 ≠ Run.timeout :=
  ⟨by decide, operations_terminate _ 0 (by decide)⟩

/-! ## Sift-down below an index, permutation and frame -/

/-- C18. For a valid index `i` whose left and right subtrees satisfy the
min-heap condition, `Heapify(array, i)` returns, the subtree rooted at `i`
then satisfies the min-heap condition, and its root is `≤` every entry of the
subtree; the root is the minimum of the entries the subtree held before the
call. -/
theorem Heapify_subtree {α : Type} [LinearOrder α] (array : List α) (i : Nat)
    (hlen : array.length < 2 ^ 62) (hi : i < array.length)
    (hl : IsMinHeapBelow array ((i + 1) * 2 - 1)) (hr : IsMinHeapBelow array ((i + 1) * 2)) :
    ∃ a' r, Heapify array (i : Int) = Run.ok a' ∧ IsMinHeapBelow a' i ∧ a'[i]? = some r ∧
      (∀ j y, inSubtree i j = true → a'[j]? = some y → r ≤ y) ∧
      (∀ j y, inSubtree i j = true → array[j]? = some y → r ≤ y) ∧
      (∃ j, inSubtree i j = true ∧ array[j]? = some r) := by
  have hlen' : array.length < 4611686018427387904 := by omega
  have e1 : (i + 1) * 2 - 1 = 2 * i + 1 := by omega
  have e2 : (i + 1) * 2 = 2 * i + 2 := by omega
  rw [e1] at hl
  rw [e2] at hr
  have hD : ∀ j, Reach i j → Reach i (2 * j + 1) ∧ Reach i (2 * j + 2) :=
    fun j hj => ⟨reach_child1 hj, reach_child2 hj⟩
  have h1 : ∀ j, Reach i j → j ≠ i → HeapAt array j := by
    intro j hj hne
    rcases reach_cases hj with h | h | h
    · exact absurd h hne
    · exact (isMinHeapBelow_iff array _).1 hl j h
    · exact (isMinHeapBelow_iff array _).1 hr j h
  have h2 : ∀ p, Reach i p → (i = 2 * p + 1 ∨ i = 2 * p + 2) →
      LeAt array p (2 * i + 1) ∧ LeAt array p (2 * i + 2) := by
    intro p hp hc
    have := reach_le hp
    omega
  have heap := siftDownOn_heap hD (array.length + 1) array i (Reach.root i) (by omega) h1 h2
  have hpos : i < (siftDown (array.length + 1) array i).length := by simpa using hi
  have hr' := List.getElem?_eq_getElem hpos
  have hpost : ∀ j y, inSubtree i j = true →
      (siftDown (array.length + 1) array i)[j]? = some y →
      (siftDown (array.length + 1) array i)[i] ≤ y :=
    fun j y hj hy => subtree_root_le heap ((inSubtree_iff i j).1 hj) _ _ hr' hy
  refine ⟨_, _, Heapify_eq array i hlen' (by omega), (isMinHeapBelow_iff _ i).2 heap, hr',
    hpost, ?_, ?_⟩
  · intro j y hj hy
    obtain ⟨j', hj', hy'⟩ := siftDown_subtree_sup (array.length + 1) array i j y
      ((inSubtree_iff i j).1 hj) hy
    exact hpost j' y ((inSubtree_iff i j').2 hj') hy'
  · obtain ⟨j', hj', hy'⟩ := siftDown_subtree_sub (array.length + 1) array i i _
      (Reach.root i) hr'
    exact ⟨j', (inSubtree_iff i j').2 hj', hy'⟩

theorem Heapify_subtree_witness :
    (([4, 9, 7, 1, 3, 8] : List Nat).length < 2 ^ 62 ∧ 1 < ([4, 9, 7, 1, 3, 8] : List Nat).length ∧
        IsMinHeapBelow ([4, 9, 7, 1, 3, 8] : List Nat) ((1 + 1) * 2 - 1) ∧
        IsMinHeapBelow ([4, 9, 7, 1, 3, 8] : List Nat) ((1 + 1) * 2)) ∧
      ∃ a' r, Heapify ([4, 9, 7, 1, 3, 8] : List Nat) ((1 : Nat) : Int) = Run.ok a' ∧
        IsMinHeapBelow a' 1 ∧ a'[1]? = some r ∧
        (∀ j y, inSubtree 1 j = true → a'[j]? = some y → r ≤ y) ∧
        (∀ j y, inSubtree 1 j = true → ([4, 9, 7, 1, 3, 8] : List Nat)[j]? = some y → r ≤ y) ∧
        (∃ j, inSubtree 1 j = true ∧ ([4, 9, 7, 1, 3, 8] : List Nat)[j]? = some r) :=
  ⟨by decide, Heapify_subtree _ 1 (by decide) (by decide) (by decide) (by decide)⟩

/-- C19. No operation loses, duplicates or invents elements, whether or not
`S` is a heap: `Heapify` and `BuildHeap` leave a permutation of `S`, `Insert`
returns a permutation of `S` with `x` appended, and for non-empty `S` the
sequence returned by `ExtractMin` together with the returned element is a
permutation of `S`, the one returned by `Replace` together with the returned
element a permutation of `S` with `x` appended. -/
theorem operations_permute {α : Type} [LinearOrder α] [Inhabited α] (S : List α) (x : α)
    (hlen : S.length < 2 ^ 62) :
    (∀ (i : Int) (a' : List α), Heapify S i = Run.ok a' → a'.Perm S) ∧
      (∀ i : Nat, i + 1 < 2 ^ 62 → ∃ a', Heapify S (i : Int) = Run.ok a' ∧ a'.Perm S) ∧
      (∃ a', BuildHeap S = Run.ok a' ∧ a'.Perm S) ∧
      (∃ a', Insert S x = Run.ok a' ∧ a'.Perm (S ++ [x])) ∧
      (S ≠ [] → ∃ S' m, ExtractMin S = Run.ok (S', m, none) ∧ (m :: S').Perm S) ∧
      (S ≠ [] → ∃ S' m, Replace S x = Run.ok (S', m, none) ∧ (m :: S').Perm (S ++ [x])) := by
  have hlen' : S.length < 4611686018427387904 := by omega
  refine ⟨?_, ?_, ?_, ?_, ?_, ?_⟩
  · intro i a' h
    rcases Heapify_cases S hlen' i with ⟨n, _, _, hn⟩ | ⟨_, hn | hn⟩
    · rw [hn] at h
      cases h
      exact siftDown_perm _ _ _
    · rw [hn] at h
      cases h
      exact List.Perm.refl _
    · rw [hn] at h
      cases h
  · intro i hi
    exact ⟨_, Heapify_eq S i hlen' (by omega), siftDown_perm _ _ _⟩
  · refine ⟨_, BuildHeap_eq S hlen', ?_⟩
    split
    · exact List.Perm.refl _
    · exact buildLoop_perm _ _
  · exact ⟨_, Insert_eq S x hlen', siftUp_perm _ _ _⟩
  · intro hne
    have hpos : 0 < S.length := List.length_pos.2 hne
    have hm := List.getElem?_eq_getElem hpos
    have hz := List.getElem?_eq_getElem (by omega : S.length - 1 < S.length)
    exact ⟨_, _, ExtractMin_eq S _ _ hlen' hm hz,
      ((siftDown_perm _ _ _).cons _).trans (popRoot_perm S _ _ hm hz)⟩
  · intro hne
    have hm := List.getElem?_eq_getElem (List.length_pos.2 hne)
    refine ⟨_, _, Replace_eq S _ x hlen' hm, ?_⟩
    exact (((siftDown_perm _ _ _).cons _).trans (set_perm hm x)).trans
      (List.perm_append_singleton x S).symm

theorem operations_permute_witness :
    (([5, 3, 8, 1, 9, 2] : List Nat).length < 2 ^ 62 ∧ ([5, 3, 8, 1, 9, 2] : List Nat) ≠ []) ∧
      (∀ (i : Int) (a' : List Nat), Heapify ([5, 3, 8, 1, 9, 2] : List Nat) i = Run.ok a' →
        a'.Perm [5, 3, 8, 1, 9, 2]) ∧
      (∀ i : Nat, i + 1 < 2 ^ 62 →
        ∃ a', Heapify ([5, 3, 8, 1, 9, 2] : List Nat) (i : Int) = Run.ok a' ∧
          a'.Perm [5, 3, 8, 1, 9, 2]) ∧
      (∃ a', BuildHeap ([5, 3, 8, 1, 9, 2] : List Nat) = Run.ok a' ∧
        a'.Perm [5, 3, 8, 1, 9, 2]) ∧
      (∃ a', Insert ([5, 3, 8, 1, 9, 2] : List Nat) 4 = Run.ok a' ∧
        a'.Perm ([5, 3, 8, 1, 9, 2] ++ [4])) ∧
      (∃ S' m, ExtractMin ([5, 3, 8, 1, 9, 2] : List Nat) = Run.ok (S', m, none) ∧
        (m :: S').Perm [5, 3, 8, 1, 9, 2]) ∧
      (∃ S' m, Replace ([5, 3, 8, 1, 9, 2] : List Nat) 4 = Run.ok (S', m, none) ∧
        (m :: S').Perm ([5, 3, 8, 1, 9, 2] ++ [4])) :=
  ⟨by decide, (operations_permute _ 4 (by decide)).1, (operations_permute _ 4 (by decide)).2.1,
    (operations_permute _ 4 (by decide)).2.2.1, (operations_permute _ 4 (by decide)).2.2.2.1,
    (operations_permute _ 4 (by decide)).2.2.2.2.1 (by decide),
    (operations_permute _ 4 (by decide)).2.2.2.2.2 (by decide)⟩

/-- C20. Frame of sift-down: for every sequence and every index `i ≥ 0`,
`Heapify(array, i)` leaves unchanged every position outside the subtree rooted
at `i`, in particular every position with index `< i`; for an index whose
child indices do not overflow it returns. -/
theorem Heapify_frame {α : Type} [LinearOrder α] (array : List α) (i : Nat)
    (hlen : array.length < 2 ^ 62) :
    (∀ a', Heapify array (i : Int) = Run.ok a' →
        a'.length = array.length ∧
        (∀ j, inSubtree i j = false → a'[j]? = array[j]?) ∧
        (∀ j, j < i → a'[j]? = array[j]?)) ∧
      (i + 1 < 2 ^ 62 → ∃ a', Heapify array (i : Int) = Run.ok a') := by
  have hlen' : array.length < 4611686018427387904 := by omega
  constructor
  · intro a' h
    have key : a'.length = array.length ∧ ∀ j, ¬ Reach i j → a'[j]? = array[j]? := by
      rcases Heapify_cases array hlen' (i : Int) with ⟨n, hn, _, hrun⟩ | ⟨_, hrun | hrun⟩
      · have : n = i := by omega
        subst this
        rw [hrun] at h
        cases h
        exact ⟨siftDown_length _ _ _, fun j hj => siftDown_frame _ _ _ _ hj⟩
      · rw [hrun] at h
        cases h
        exact ⟨rfl, fun _ _ => rfl⟩
      · rw [hrun] at h
        cases h
    refine ⟨key.1, ?_, ?_⟩
    · intro j hj
      apply key.2
      intro c
      rw [(inSubtree_iff i j).2 c] at hj
      cases hj
    · intro j hj
      apply key.2
      intro c
      have := reach_le c
      omega
  · intro hi
    exact ⟨_, Heapify_eq array i hlen' (by omega)⟩

theorem Heapify_frame_witness :
    (([4, 9, 7, 1, 3, 8] : List Nat).length < 2 ^ 62 ∧ (1 : Nat) + 1 < 2 ^ 62) ∧
      (∀ a', Heapify ([4, 9, 7, 1, 3, 8] : List Nat) ((1 : Nat) : Int) = Run.ok a' →
        a'.length = ([4, 9, 7, 1, 3, 8] : List Nat).length ∧
        (∀ j, inSubtree 1 j = false → a'[j]? = ([4, 9, 7, 1, 3, 8] : List Nat)[j]?) ∧
        (∀ j, j < 1 → a'[j]? = ([4, 9, 7, 1, 3, 8] : List Nat)[j]?)) ∧
      ∃ a', Heapify ([4, 9, 7, 1, 3, 8] : List Nat) ((1 : Nat) : Int) = Run.ok a' :=
  ⟨by decide, (Heapify_frame _ 1 (by decide)).1, (Heapify_frame _ 1 (by decide)).2 (by decide)⟩

end TreeGo
